import Mathlib

/-!
# Verification of the recipe-app vector store and ANN index

Shallow embedding of the repository `willfaust/recipe-app`:

* `scripts/convert_to_binary.py` — binary embedding-store codec
  (header `int32 N`, `int32 D`, then `N*D` float32 little-endian);
* `scripts/generate_embeddings.py` — construction of the text passed to the
  embedding model (`create_search_text`, truncation to 2000 characters);
* `scripts/search_test.py` — query pipeline (HNSW index build/load/save and
  `knn_query` are delegated to the external `hnswlib` library, so the index
  itself is modelled from the specification; the pipeline around it — score
  `1 - distance`, metadata join — follows the script).

Float32 values are modelled by their 32-bit patterns (`Nat < 2^32`): the
spec's store round-trip property is *bit*-identity, which is exactly
identity of the bit patterns.  Index-side geometry is modelled over `ℚ`
(the spec allows normalising vectors, under which cosine distance is
`1 - dot`), keeping every comparison decidable.
-/

namespace RecipeApp

/-- The error taxonomy of spec §7. -/
inductive CoreError where
  | DimensionMismatch
  | TruncatedFile
  | InvalidHeader
  | IdOutOfRange
  | EmptyIndex
  | CorruptArtifact
  | EmbeddingUnavailable
  deriving DecidableEq, Repr

/-! ## Embedding-store binary codec (`scripts/convert_to_binary.py`) -/

/-- Little-endian 4-byte encoding of a 32-bit word, as produced both by
`struct.pack` for the two `int32` header fields and by `ndarray.tobytes()`
for each float32 payload word in `convert_to_binary.py`. -/
def word32le (n : Nat) : List Nat :=
  [n % 256, n / 256 % 256, n / 2 ^ 16 % 256, n / 2 ^ 24 % 256]

/-- Unsigned little-endian decoding of 4 bytes to a 32-bit word. -/
def decWord32 (b0 b1 b2 b3 : Nat) : Nat :=
  b0 + 256 * b1 + 2 ^ 16 * b2 + 2 ^ 24 * b3

/-- Two's-complement reading of a 32-bit word as a signed `int32`
(the header fields are packed with format `<i`, which is signed). -/
def asInt32 (u : Nat) : Int :=
  if u < 2 ^ 31 then (u : Int) else (u : Int) - 2 ^ 32

/-- A stored vector: the float32 bit patterns of its components. -/
abbrev StoreVec := List Nat

/-- The flat row-major float32 payload: each component of each row in order,
4 bytes per component, exactly as `embeddings.tobytes()` lays it out. -/
def payloadBytes (rows : List StoreVec) : List Nat :=
  rows.flatMap (fun v => v.flatMap word32le)

/-- The full artifact: `int32` count, `int32` dimension, then the payload —
the three `f.write` calls of `convert_to_binary.py`. -/
def artifactBytes (D : Nat) (rows : List StoreVec) : List Nat :=
  word32le rows.length ++ word32le D ++ payloadBytes rows

/-- Store `write`.  The byte layout is `convert_to_binary.py` (`main`): the
count and dimension come from the array shape, i.e. `D` is the recorded
dimension of the input array.  Modelled from the spec: the
`DimensionMismatch` gate of §4.1 ("requires all vectors share dimension D")
— in the script the input is an `npz` 2-D array, so the check is implicit
in the array shape and not separate code under `src/`. -/
def write (D : Nat) (rows : List StoreVec) : Except CoreError (List Nat) :=
  if rows.all (fun v => v.length = D) then
    Except.ok (artifactBytes D rows)
  else
    Except.error CoreError.DimensionMismatch

/-- Store `write` on a bare vector sequence, dimension taken from the first
vector.  Modelled from the spec: §4.1 gives `write` the signature
`write(vectors: sequence of Vector)`, with `D` their shared dimension. -/
def writeSeq (rows : List StoreVec) : Except CoreError (List Nat) :=
  write (rows.headD []).length rows

/-- Group a flat byte list into 32-bit words (4 bytes each, little-endian). -/
def bytesToWords : List Nat → List Nat
  | b0 :: b1 :: b2 :: b3 :: rest => decWord32 b0 b1 b2 b3 :: bytesToWords rest
  | _ => []

/-- Split a flat word list into `n` rows of `d` words each. -/
def rowsOf (d : Nat) : Nat → List Nat → List StoreVec
  | 0, _ => []
  | n + 1, ws => ws.take d :: rowsOf d n (ws.drop d)

/-- Store `read`.  Modelled from the spec: §4.1 — no reader exists under
`src/` (the artifact is consumed by an external Swift app).  Fails with
`TruncatedFile` if the payload length is not `N*D*4` bytes (or the header
itself is short), `InvalidHeader` if `N < 0` or `D <= 0`. -/
def read (bytes : List Nat) : Except CoreError (Nat × Nat × List StoreVec) :=
  match bytes with
  | b0 :: b1 :: b2 :: b3 :: c0 :: c1 :: c2 :: c3 :: payload =>
    let ni : Int := asInt32 (decWord32 b0 b1 b2 b3)
    let di : Int := asInt32 (decWord32 c0 c1 c2 c3)
    if ni < 0 ∨ di ≤ 0 then
      Except.error CoreError.InvalidHeader
    else
      let n : Nat := ni.toNat
      let d : Nat := di.toNat
      if payload.length = n * d * 4 then
        Except.ok (n, d, rowsOf d n (bytesToWords payload))
      else
        Except.error CoreError.TruncatedFile
  | _ => Except.error CoreError.TruncatedFile

/-! ## Embedding-input construction (`scripts/generate_embeddings.py`) -/

/-- A recipe record.  `title`/`description` are optional strings (absent keys
read as `None` via `recipe.get`), `ingredients` an optional-by-emptiness
list; `rating` and `id` stand for the further fields of the JSON record that
`create_search_text` never reads. -/
structure Recipe where
  title : Option String
  description : Option String
  ingredients : List String
  rating : Option String
  id : Option String

/-- Python truthiness of `recipe.get(key)` for a string field: `None` and the
empty string are falsy. -/
def strTruthy : Option String → Bool
  | none => false
  | some s => s ≠ ""

/-- `create_search_text` of `generate_embeddings.py`: title if truthy, then
description if truthy, then `"Ingredients: "` plus the first 10 ingredients
comma-joined if the ingredient list is non-empty, all space-joined. -/
def create_search_text (r : Recipe) : String :=
  let parts : List String :=
    (if strTruthy r.title then [r.title.getD ""] else []) ++
    (if strTruthy r.description then [r.description.getD ""] else []) ++
    (if r.ingredients ≠ [] then
      ["Ingredients: " ++ String.intercalate ", " (r.ingredients.take 10)]
    else [])
  String.intercalate " " parts

/-- The text actually passed to the embedding model: `main` of
`generate_embeddings.py` truncates each search text to 2000 characters
(`text = text[:2000]`) before tokenising. -/
def embedInput (r : Recipe) : String :=
  (create_search_text r).take 2000

/-! ## Proximity-graph index

`search_test.py` delegates the index to the external `hnswlib` library
(`init_index`, `add_items`, `save_index`, `load_index`, `knn_query`), whose
code is not part of this repository, so the index is modelled from the
specification (§3, §4.2–§4.4).  Geometry is over `ℚ`: the spec's cosine
distance "1 − cosine similarity (equivalently, normalize vectors and use
squared Euclidean)" is modelled on normalised vectors as `1 − dot`. -/

abbrev Vec := List ℚ

def dotQ (a b : Vec) : ℚ := (List.zipWith (· * ·) a b).sum

/-- Modelled from the spec: §4.2 distance metric, 1 − cosine similarity on
normalised vectors. -/
def cosDist (a b : Vec) : ℚ := 1 - dotQ a b

/-- Modelled from the spec: §3 Graph Node — an assigned maximum layer and,
for every layer `0..layer`, a neighbor id list (`nbrs.length = layer + 1`
in a well-formed index). -/
structure GraphNode where
  layer : Nat
  nbrs : List (List Nat)
  deriving DecidableEq, Repr, Inhabited

/-- Modelled from the spec: §3 Graph Index — all nodes, the stored vectors
they reference, the entry point and the build parameter `M`. -/
structure HIndex where
  dim : Nat
  vecs : List Vec
  nodes : List GraphNode
  entry : Nat
  mParam : Nat
  deriving DecidableEq, Repr

def vecAt (idx : HIndex) (i : Nat) : Vec := idx.vecs.getD i []

def nodeAt (idx : HIndex) (i : Nat) : GraphNode := idx.nodes.getD i default

/-- Neighbor ids of node `i` at layer `l`. -/
def nbrsAt (idx : HIndex) (l i : Nat) : List Nat := (nodeAt idx i).nbrs.getD l []

/-- Distance from the query to stored vector `i`. -/
def dOf (idx : HIndex) (q : Vec) (i : Nat) : ℚ := cosDist q (vecAt idx i)

/-- Strict "closer to the query" order on ids: smaller distance first, ties
broken by lower id (§4.2/§4.3 determinism rule). -/
def keyLtB (idx : HIndex) (q : Vec) (i j : Nat) : Bool :=
  dOf idx q i < dOf idx q j ∨ (dOf idx q i = dOf idx q j ∧ i < j)

/-- Insert an id into a list kept sorted by `keyLtB` (ascending). -/
def insKey (idx : HIndex) (q : Vec) (e : Nat) : List Nat → List Nat
  | [] => [e]
  | x :: xs => if keyLtB idx q e x then e :: x :: xs else x :: insKey idx q e xs

/-- The keyLtB-minimal element of a list. -/
def minBy (idx : HIndex) (q : Vec) : List Nat → Option Nat
  | [] => none
  | x :: xs =>
    match minBy idx q xs with
    | none => some x
    | some m => some (if keyLtB idx q x m then x else m)

/-- Beam-search state: all evaluated ids, the discovered-but-unexpanded
frontier, and the ≤ `ef` best candidates so far (sorted ascending). -/
structure BState where
  visited : List Nat
  frontier : List Nat
  best : List Nat
  deriving Repr

/-- A freshly evaluated neighbor improves the candidate set if the set is
not yet full or the neighbor is closer than the current worst candidate. -/
def canAdd (idx : HIndex) (q : Vec) (ef : Nat) (st : BState) (e : Nat) : Bool :=
  st.best.length < ef ||
    (match st.best.getLast? with
     | some w => keyLtB idx q e w
     | none => false)

/-- Modelled from the spec: §4.3 step 2, "evaluate its neighbors, evalNbr
improvements" — an unvisited neighbor is marked visited and, if it improves,
joins the candidate set (pruned back to width `ef`) and the frontier. -/
def evalNbr (idx : HIndex) (q : Vec) (ef : Nat) (st : BState) (e : Nat) : BState :=
  if e ∈ st.visited then st
  else if canAdd idx q ef st e then
    { visited := e :: st.visited,
      frontier := e :: st.frontier,
      best := (insKey idx q e st.best).take ef }
  else
    { st with visited := e :: st.visited }

/-- Expand node `c`: evaluate all its layer-0 neighbors. -/
def expandAll (idx : HIndex) (q : Vec) (ef : Nat) (st : BState) (c : Nat) : BState :=
  (nbrsAt idx 0 c).foldl (evalNbr idx q ef) st

/-- Stop when the candidate set is full and the closest frontier element is
farther than the worst retained candidate (§4.3 step 2 stop rule). -/
def shouldStop (idx : HIndex) (q : Vec) (ef : Nat) (st : BState) (c : Nat) : Bool :=
  ef ≤ st.best.length &&
    (match st.best.getLast? with
     | some w => keyLtB idx q w c
     | none => true)

/-- Modelled from the spec: §4.3 step 2 — bounded best-first beam search at
layer 0.  `fuel` only bounds the iteration count; `2*N + 2` fuel always
suffices (each round either consumes a frontier entry or discovers a new
node, and at most `N` distinct nodes are ever discovered). -/
def beamLoop (idx : HIndex) (q : Vec) (ef : Nat) : Nat → BState → List Nat
  | 0, st => st.best
  | fuel + 1, st =>
    match minBy idx q st.frontier with
    | none => st.best
    | some c =>
      if shouldStop idx q ef st c then st.best
      else
        beamLoop idx q ef fuel
          (expandAll idx q ef { st with frontier := st.frontier.erase c } c)

/-- The beam starts at the node the upper-layer descent delivered. -/
def startState (ef : Nat) (s0 : Nat) : BState := ⟨[s0], [s0], [s0].take ef⟩

/-- One greedy move at layer `l`: step to the closest neighbor if it is
closer than the current node, else stay. -/
def greedyStep (idx : HIndex) (q : Vec) (l cur : Nat) : Nat :=
  match minBy idx q (nbrsAt idx l cur) with
  | none => cur
  | some m => if keyLtB idx q m cur then m else cur

/-- Greedy single-best descent at one layer (fuel-bounded; each move strictly
decreases the distance, so `N` fuel suffices). -/
def greedyAt (idx : HIndex) (q : Vec) (l : Nat) : Nat → Nat → Nat
  | 0, cur => cur
  | fuel + 1, cur =>
    let nxt := greedyStep idx q l cur
    if nxt = cur then cur else greedyAt idx q l fuel nxt

/-- Modelled from the spec: §4.3 step 1 — greedy descent from the entry
point through layers `topLayer .. 1`. -/
def descend (idx : HIndex) (q : Vec) : Nat :=
  (((List.range (nodeAt idx idx.entry).layer).map (· + 1)).reverse).foldl
    (fun cur l => greedyAt idx q l idx.nodes.length cur) idx.entry

/-- Modelled from the spec: §4.3 — the error-free part of `search`: descent,
layer-0 beam of width `ef`, then the `k` closest of the candidate set,
ascending by distance, ties broken by lower id. -/
def searchCore (idx : HIndex) (q : Vec) (k ef : Nat) : List (Nat × ℚ) :=
  let s0 := descend idx q
  let best := beamLoop idx q ef (2 * idx.nodes.length + 2) (startState ef s0)
  (best.take k).map (fun i => (i, dOf idx q i))

/-- Modelled from the spec: §4.3 `search(index, queryVector, k, ef)` with the
§4.3/§7 error contract: `EmptyIndex` for an empty index, `DimensionMismatch`
when the query length differs from `D`. -/
def search (idx : HIndex) (q : Vec) (k ef : Nat) : Except CoreError (List (Nat × ℚ)) :=
  if idx.vecs.length = 0 then Except.error CoreError.EmptyIndex
  else if q.length ≠ idx.dim then Except.error CoreError.DimensionMismatch
  else Except.ok (searchCore idx q k ef)

/-- Structural well-formedness of an index, exactly the §3 invariants that
`load` validates: node/vector counts agree, vectors have dimension `D`,
the entry point is in range (when non-empty) and carries the maximum layer,
every node has one neighbor list per layer `0..layer`, and all neighbor ids
are in range. -/
def wfB (idx : HIndex) : Bool :=
  (idx.nodes.length = idx.vecs.length) &&
  idx.vecs.all (fun v => v.length = idx.dim) &&
  (idx.vecs.length = 0 || idx.entry < idx.nodes.length) &&
  idx.nodes.all (fun nd =>
    nd.nbrs.length = nd.layer + 1 &&
    nd.nbrs.all (fun l => l.all (fun j => j < idx.nodes.length))) &&
  idx.nodes.all (fun nd => nd.layer ≤ (nodeAt idx idx.entry).layer)

abbrev WF (idx : HIndex) : Prop := wfB idx = true

/-- One step of the layer-0 neighbor closure. -/
def closeStep (idx : HIndex) (s : List Nat) : List Nat :=
  (s ++ s.flatMap (fun i => nbrsAt idx 0 i)).dedup

/-- Ids reachable from `s` in the layer-0 graph (closure stabilises within
`N` steps). -/
def reachSet (idx : HIndex) (s : Nat) : List Nat :=
  (closeStep idx)^[idx.nodes.length] [s]

/-- The §3 connectivity invariant of a completed build, in the strong
directed form the multi-layer search relies on: every node reaches every
node at layer 0. -/
abbrev ConnAll (idx : HIndex) : Prop :=
  ∀ i < idx.nodes.length, ∀ j < idx.nodes.length, j ∈ reachSet idx i

/-! ## Query pipeline (`scripts/search_test.py`) -/

/-- External metadata for one recipe id (title, description, rating — spec §6
`getMetadata`). -/
structure RecipeMeta where
  mTitle : String
  mDescription : String
  mRating : ℚ
  deriving DecidableEq, Repr

/-- One ranked search result as presented by `search` in `search_test.py`:
the id, the user-facing score `1 - dist`, and the joined metadata. -/
structure RankedResult where
  rid : Nat
  score : ℚ
  meta : RecipeMeta
  deriving DecidableEq, Repr

/-- The query pipeline of `search_test.py` (`search`): embed the query text
(failure surfaces as `EmbeddingUnavailable`, spec §4.5), run the index
search, then join each returned id with its metadata and convert each
distance to the similarity score `1 - dist`. -/
def queryByText (embed : String → Option Vec) (getMetadata : Nat → RecipeMeta)
    (idx : HIndex) (text : String) (k ef : Nat) : Except CoreError (List RankedResult) :=
  match embed text with
  | none => Except.error CoreError.EmbeddingUnavailable
  | some q =>
    (search idx q k ef).map
      (fun rs => rs.map (fun p => ⟨p.1, 1 - p.2, getMetadata p.1⟩))

/-! ### Error contract and pipeline presentation (C5, C8) -/

/-- A two-node example index (dim 1, mutually linked at layer 0). -/
def exIdx : HIndex :=
  ⟨1, [[1], [(1 : ℚ)/2]], [⟨0, [[1]]⟩, ⟨0, [[0]]⟩], 0, 2⟩

/-- An empty example index. -/
def exIdxEmpty : HIndex := ⟨1, [], [], 0, 2⟩

/-! ## Index persistence (§4.4, §6)

Modelled from the spec: `save_index`/`load_index` live in `hnswlib`, outside
this repository.  §6 leaves the graph artifact layout implementation-defined
but requires it to encode `N`, `D`, `M`, the entry point and the per-node
layer/neighbor structure; §4.4/§7 require `load` to validate structural
bounds and fail with `CorruptArtifact` on inconsistency. -/

def encList (xs : List Nat) : List Nat := xs.length :: xs

def encQ (x : ℚ) : List Nat := [if x.num < 0 then 1 else 0, x.num.natAbs, x.den]

def encVecQ (v : Vec) : List Nat := v.length :: v.flatMap encQ

def encNode (nd : GraphNode) : List Nat :=
  nd.layer :: nd.nbrs.length :: nd.nbrs.flatMap encList

/-- Modelled from the spec: §4.4 `save(index) -> artifact`, a flat token
stream holding `D`, `M`, the entry point, `N`, then the vectors and the
per-node (layer count, per-layer neighbor list) structure. -/
def save (idx : HIndex) : List Nat :=
  [idx.dim, idx.mParam, idx.entry, idx.vecs.length]
    ++ idx.vecs.flatMap encVecQ ++ idx.nodes.flatMap encNode

def decTake : Nat → List Nat → Option (List Nat × List Nat)
  | 0, ts => some ([], ts)
  | _ + 1, [] => none
  | n + 1, t :: ts => (decTake n ts).map (fun p => (t :: p.1, p.2))

def decList : List Nat → Option (List Nat × List Nat)
  | [] => none
  | n :: rest => decTake n rest

def decLists : Nat → List Nat → Option (List (List Nat) × List Nat)
  | 0, ts => some ([], ts)
  | n + 1, ts => (decList ts).bind (fun p => (decLists n p.2).map (fun r => (p.1 :: r.1, r.2)))

def decQ : List Nat → Option (ℚ × List Nat)
  | s :: m :: d :: rest => some (if s = 1 then -(mkRat m d) else mkRat m d, rest)
  | _ => none

def decQs : Nat → List Nat → Option (Vec × List Nat)
  | 0, ts => some ([], ts)
  | n + 1, ts => (decQ ts).bind (fun p => (decQs n p.2).map (fun r => (p.1 :: r.1, r.2)))

def decVecQ : List Nat → Option (Vec × List Nat)
  | [] => none
  | n :: rest => decQs n rest

def decVecQs : Nat → List Nat → Option (List Vec × List Nat)
  | 0, ts => some ([], ts)
  | n + 1, ts => (decVecQ ts).bind (fun p => (decVecQs n p.2).map (fun r => (p.1 :: r.1, r.2)))

def decNode : List Nat → Option (GraphNode × List Nat)
  | layer :: cnt :: rest => (decLists cnt rest).map (fun p => (⟨layer, p.1⟩, p.2))
  | _ => none

def decNodes : Nat → List Nat → Option (List GraphNode × List Nat)
  | 0, ts => some ([], ts)
  | n + 1, ts => (decNode ts).bind (fun p => (decNodes n p.2).map (fun r => (p.1 :: r.1, r.2)))

/-- Parse the body of an artifact after the 4-token header. -/
def loadAux (dim m entry n : Nat) (rest : List Nat) : Option HIndex :=
  (decVecQs n rest).bind (fun p =>
    (decNodes n p.2).bind (fun r =>
      if r.2.isEmpty && wfB ⟨dim, p.1, r.1, entry, m⟩ then
        some ⟨dim, p.1, r.1, entry, m⟩
      else none))

/-- Modelled from the spec: §4.4 `load(artifact) -> index`, validating the
structural bounds of §7 (`wfB`) and failing with `CorruptArtifact` on any
inconsistency. -/
def load (ts : List Nat) : Except CoreError HIndex :=
  match ts with
  | dim :: m :: entry :: n :: rest =>
    match loadAux dim m entry n rest with
    | some idx => Except.ok idx
    | none => Except.error CoreError.CorruptArtifact
  | _ => Except.error CoreError.CorruptArtifact

/-! ### The candidate order -/

/-- The strict candidate order as a relation. -/
def keyRel (idx : HIndex) (q : Vec) : Nat → Nat → Prop :=
  fun a b => keyLtB idx q a b = true

/-- Invariants of the layer-0 beam state. -/
structure BInv (idx : HIndex) (q : Vec) (ef : Nat) (st : BState) : Prop where
  vnodup : st.visited.Nodup
  vrange : ∀ v ∈ st.visited, v < idx.nodes.length
  fsub : ∀ v ∈ st.frontier, v ∈ st.visited
  bsub : ∀ v ∈ st.best, v ∈ st.visited
  bsorted : List.Pairwise (keyRel idx q) st.best
  blen : st.best.length ≤ ef
  bfull : st.best.length < ef → ∀ v ∈ st.visited, v ∈ st.best
  vne : st.visited ≠ []
  fnodup : st.frontier.Nodup
  bdom : ∀ v ∈ st.visited, v ∉ st.best → ∀ b ∈ st.best, keyRel idx q b v
  bcard : st.best.length = min ef st.visited.length

/-- While the candidate set is not full, every expanded node has all its
neighbors evaluated. -/
def ClosedInv (idx : HIndex) (q : Vec) (ef : Nat) (st : BState) : Prop :=
  st.best.length < ef →
    ∀ v ∈ st.visited, v ∉ st.frontier → ∀ e ∈ nbrsAt idx 0 v, e ∈ st.visited

/-! ## Recall monotonicity in `ef` (C7)

The beam loop, returning the whole final state (the `best` projection of
this loop is exactly `beamLoop`). -/

def beamLoopSt (idx : HIndex) (q : Vec) (ef : Nat) : Nat → BState → BState
  | 0, st => st
  | fuel + 1, st =>
    match minBy idx q st.frontier with
    | none => st
    | some c =>
      if shouldStop idx q ef st c then st
      else
        beamLoopSt idx q ef fuel
          (expandAll idx q ef { st with frontier := st.frontier.erase c } c)

/-- All ids sorted by the candidate order (insertion sort with `insKey`). -/
def sortedIds (idx : HIndex) (q : Vec) : List Nat :=
  (List.range idx.nodes.length).foldr (insKey idx q) []

/-- The brute-force true top-`k`: the `k` closest stored ids. -/
def trueTopK (idx : HIndex) (q : Vec) (k : Nat) : List Nat :=
  (sortedIds idx q).take k

/-- The overlap between a result list and the true top-`k` id set. -/
def overlapCount (tk : List Nat) (rs : List (Nat × ℚ)) : Nat :=
  ((rs.map Prod.fst).filter (fun i => decide (i ∈ tk))).length

/-- Coupling invariant between the `ef1` run and the `ef2` run. -/
structure CInv (idx : HIndex) (q : Vec) (ef1 : Nat) (st1 st2 : BState) : Prop where
  viseq : st1.visited = st2.visited
  fsub12 : ∀ x ∈ st1.frontier, x ∈ st2.frontier
  crowd : ∀ x ∈ st2.frontier, x ∉ st1.frontier →
    st1.best.length = ef1 ∧ ∀ b ∈ st1.best, keyRel idx q b x

/-! ## Theorems -/

/-! ### Codec lemmas -/

theorem word32le_length (n : Nat) : (word32le n).length = 4 := rfl

theorem decWord32_word32le (n : Nat) (h : n < 2 ^ 32) :
    decWord32 (n % 256) (n / 256 % 256) (n / 2 ^ 16 % 256) (n / 2 ^ 24 % 256) = n := by
  unfold decWord32
  omega

theorem asInt32_small (n : Nat) (h : n < 2 ^ 31) : asInt32 n = (n : Int) := by
  unfold asInt32
  split
  · rfl
  · omega

/-- A vector's byte block has length `4 * D`. -/
theorem vecBytes_length (v : StoreVec) :
    (v.flatMap word32le).length = 4 * v.length := by
  induction v with
  | nil => rfl
  | cons w ws ih => simp [List.flatMap_cons, ih, word32le_length]; ring

theorem payloadBytes_length (D : Nat) (rows : List StoreVec)
    (h : ∀ v ∈ rows, v.length = D) :
    (payloadBytes rows).length = rows.length * D * 4 := by
  induction rows with
  | nil => simp [payloadBytes]
  | cons v vs ih =>
    have hv : v.length = D := h v (List.mem_cons_self v vs)
    have hvs : ∀ u ∈ vs, u.length = D := fun u hu => h u (List.mem_cons_of_mem v hu)
    have hsplit : payloadBytes (v :: vs) = v.flatMap word32le ++ payloadBytes vs := by
      simp [payloadBytes, List.flatMap_cons]
    rw [hsplit, List.length_append, vecBytes_length, hv, ih hvs, List.length_cons]
    ring

/-- Decoding the concatenated bytes of one vector recovers its words. -/
theorem bytesToWords_vec (v : StoreVec) (rest : List Nat)
    (h : ∀ w ∈ v, w < 2 ^ 32) :
    bytesToWords (v.flatMap word32le ++ rest) = v ++ bytesToWords rest := by
  induction v with
  | nil => rfl
  | cons w ws ih =>
    have hw : w < 2 ^ 32 := h w (List.mem_cons_self w ws)
    have hws : ∀ u ∈ ws, u < 2 ^ 32 := fun u hu => h u (List.mem_cons_of_mem w hu)
    simp only [List.flatMap_cons, List.append_assoc, List.cons_append]
    show bytesToWords (w % 256 :: (w / 256 % 256) :: (w / 2 ^ 16 % 256) ::
      (w / 2 ^ 24 % 256) :: (ws.flatMap word32le ++ rest)) = _
    rw [bytesToWords, decWord32_word32le w hw, ih hws]

theorem bytesToWords_payload (rows : List StoreVec)
    (h : ∀ v ∈ rows, ∀ w ∈ v, w < 2 ^ 32) :
    bytesToWords (payloadBytes rows) = rows.flatten := by
  induction rows with
  | nil => rfl
  | cons v vs ih =>
    have hv : ∀ w ∈ v, w < 2 ^ 32 := h v (List.mem_cons_self v vs)
    have hvs : ∀ u ∈ vs, ∀ w ∈ u, w < 2 ^ 32 :=
      fun u hu => h u (List.mem_cons_of_mem v hu)
    simp only [payloadBytes, List.flatMap_cons, List.flatten_cons]
    rw [bytesToWords_vec v _ hv]
    simpa [payloadBytes] using congrArg (v ++ ·) (ih hvs)

/-- Regrouping the flattened rows recovers the rows. -/
theorem rowsOf_flatten (D : Nat) (rows : List StoreVec)
    (h : ∀ v ∈ rows, v.length = D) :
    rowsOf D rows.length rows.flatten = rows := by
  induction rows with
  | nil => rfl
  | cons v vs ih =>
    have hv : v.length = D := h v (List.mem_cons_self v vs)
    have hvs : ∀ u ∈ vs, u.length = D := fun u hu => h u (List.mem_cons_of_mem v hu)
    subst hv
    show (v ++ vs.flatten).take v.length :: rowsOf v.length vs.length
        ((v ++ vs.flatten).drop v.length) = v :: vs
    rw [List.take_left, List.drop_left, ih hvs]

/-- Slicing the payload at row `i` yields exactly that row's bytes. -/
theorem payload_slice (D : Nat) (rows : List StoreVec)
    (h : ∀ v ∈ rows, v.length = D) (i : Nat) (hi : i < rows.length) :
    ((payloadBytes rows).drop (i * (D * 4))).take (D * 4)
      = (rows.get ⟨i, hi⟩).flatMap word32le := by
  induction rows generalizing i with
  | nil => exact absurd hi (by simp)
  | cons v vs ih =>
    have hv : v.length = D := h v (List.mem_cons_self v vs)
    have hvs : ∀ u ∈ vs, u.length = D := fun u hu => h u (List.mem_cons_of_mem v hu)
    have hlen : (v.flatMap word32le).length = D * 4 := by
      rw [vecBytes_length, hv]; ring
    have hsplit : payloadBytes (v :: vs) = v.flatMap word32le ++ payloadBytes vs := by
      simp [payloadBytes, List.flatMap_cons]
    cases i with
    | zero =>
      rw [hsplit]
      simp only [Nat.zero_mul, List.drop_zero, List.get]
      rw [List.take_left' hlen]
    | succ j =>
      have hj : j < vs.length := by simpa using hi
      rw [hsplit]
      have harith : (j + 1) * (D * 4) = D * 4 + j * (D * 4) := by ring
      rw [harith, ← List.drop_drop, List.drop_left' hlen]
      exact ih hvs j hj

/-- `read` inverts `write` when the input is well-formed. -/
theorem read_artifact (D : Nat) (rows : List StoreVec)
    (hdim : ∀ v ∈ rows, v.length = D)
    (hw : ∀ v ∈ rows, ∀ w ∈ v, w < 2 ^ 32)
    (hD1 : 1 ≤ D) (hN31 : rows.length < 2 ^ 31) (hD31 : D < 2 ^ 31) :
    read (artifactBytes D rows) = Except.ok (rows.length, D, rows) := by
  have h32N : rows.length < 2 ^ 32 := by omega
  have h32D : D < 2 ^ 32 := by omega
  show read (word32le rows.length ++ word32le D ++ payloadBytes rows) = _
  simp only [word32le, List.cons_append, List.nil_append]
  rw [read]
  simp only []
  rw [decWord32_word32le _ h32N, decWord32_word32le _ h32D,
    asInt32_small _ hN31, asInt32_small _ hD31]
  rw [if_neg (by omega)]
  simp only [Int.toNat_natCast]
  rw [if_pos (payloadBytes_length D rows hdim)]
  rw [bytesToWords_payload rows hw, rowsOf_flatten D rows hdim]

/-- C2 helper: `write` succeeds on dimension-consistent input. -/
theorem write_ok (D : Nat) (rows : List StoreVec)
    (hdim : ∀ v ∈ rows, v.length = D) :
    write D rows = Except.ok (artifactBytes D rows) := by
  unfold write
  rw [if_pos]
  simp only [List.all_eq_true, decide_eq_true_eq]
  exact hdim

/-- **C2.** For every vector sequence with `N ≥ 0`, `D ≥ 1`, all vectors of
dimension `D` (and header fields within `int32` range, as `struct.pack('<i')`
requires), `read(write(vectors))` returns count `N`, dimension `D`, and the
vectors bit-identical to the input, in the same order. -/
theorem store_roundtrip (D : Nat) (rows : List StoreVec)
    (hdim : ∀ v ∈ rows, v.length = D)
    (hw : ∀ v ∈ rows, ∀ w ∈ v, w < 2 ^ 32)
    (hD1 : 1 ≤ D) (hN31 : rows.length < 2 ^ 31) (hD31 : D < 2 ^ 31) :
    (write D rows).bind read = Except.ok (rows.length, D, rows) := by
  rw [write_ok D rows hdim]
  simpa using read_artifact D rows hdim hw hD1 hN31 hD31

/-- C2 witness: a concrete 2×2 store round-trips. -/
theorem store_roundtrip_witness :
    (write 2 [[1, 2], [3, 4]]).bind read = Except.ok (2, 2, [[1, 2], [3, 4]]) :=
  store_roundtrip 2 [[1, 2], [3, 4]] (by decide) (by decide) (by decide)
    (by decide) (by decide)

/-- **C4.** The artifact produced by `write` is a little-endian `int32 N` at
offset 0, a little-endian `int32 D` at offset 4, and the `N*D` float32 words
row-major, vector `i` occupying bytes `[8 + i*D*4, 8 + (i+1)*D*4)`. -/
theorem artifact_layout (D : Nat) (rows : List StoreVec)
    (hdim : ∀ v ∈ rows, v.length = D) :
    write D rows = Except.ok (artifactBytes D rows) ∧
    (artifactBytes D rows).take 4 = word32le rows.length ∧
    ((artifactBytes D rows).drop 4).take 4 = word32le D ∧
    ∀ i, ∀ hi : i < rows.length,
      ((artifactBytes D rows).drop (8 + i * (D * 4))).take (D * 4)
        = (rows.get ⟨i, hi⟩).flatMap word32le := by
  refine ⟨write_ok D rows hdim, ?_, ?_, ?_⟩
  · show (word32le rows.length ++ (word32le D ++ payloadBytes rows)).take 4 = _
    rw [List.take_left' (word32le_length rows.length)]
  · show ((word32le rows.length ++ (word32le D ++ payloadBytes rows)).drop 4).take 4 = _
    rw [List.drop_left' (word32le_length rows.length),
      List.take_left' (word32le_length D)]
  · intro i hi
    show ((word32le rows.length ++ (word32le D ++ payloadBytes rows)).drop
        (8 + i * (D * 4))).take (D * 4) = _
    have h8 : 8 + i * (D * 4) = 4 + (4 + i * (D * 4)) := by ring
    rw [h8, ← List.drop_drop, ← List.drop_drop,
      List.drop_left' (word32le_length rows.length),
      List.drop_left' (word32le_length D)]
    exact payload_slice D rows hdim i hi

/-- C4 witness at a concrete 2×2 store. -/
theorem artifact_layout_witness :
    write 2 [[1, 2], [3, 4]] = Except.ok (artifactBytes 2 [[1, 2], [3, 4]]) ∧
    (artifactBytes 2 [[1, 2], [3, 4]]).take 4 = word32le 2 ∧
    ((artifactBytes 2 [[1, 2], [3, 4]]).drop 4).take 4 = word32le 2 ∧
    ∀ i, ∀ hi : i < ([[1, 2], [3, 4]] : List StoreVec).length,
      ((artifactBytes 2 [[1, 2], [3, 4]]).drop (8 + i * (2 * 4))).take (2 * 4)
        = (([[1, 2], [3, 4]] : List StoreVec).get ⟨i, hi⟩).flatMap word32le :=
  artifact_layout 2 [[1, 2], [3, 4]] (by decide)

/-- **C6.** `write` on a bare vector sequence fails with `DimensionMismatch`
iff two vectors in the sequence have different lengths; when all lengths
agree it succeeds (and on failure no artifact is produced, the error being
the only outcome). -/
theorem writeSeq_dimension (rows : List StoreVec) :
    (writeSeq rows = Except.error CoreError.DimensionMismatch ↔
      ∃ u ∈ rows, ∃ v ∈ rows, u.length ≠ v.length) ∧
    ((∀ u ∈ rows, ∀ v ∈ rows, u.length = v.length) →
      writeSeq rows = Except.ok (artifactBytes (rows.headD []).length rows)) := by
  unfold writeSeq write
  by_cases hall : ∀ v ∈ rows, v.length = (rows.headD []).length
  · have hb : rows.all (fun v => v.length = (rows.headD []).length) = true := by
      simp only [List.all_eq_true, decide_eq_true_eq]; exact hall
    rw [if_pos hb]
    constructor
    · constructor
      · intro h; exact absurd h (by simp)
      · rintro ⟨u, hu, v, hv, hne⟩
        exact absurd ((hall u hu).trans (hall v hv).symm) hne
    · intro _; rfl
  · have hb : rows.all (fun v => v.length = (rows.headD []).length) = false := by
      simp only [List.all_eq_false, decide_eq_true_eq]
      push_neg at hall
      obtain ⟨v, hv, hne⟩ := hall
      exact ⟨v, hv, by simpa using hne⟩
    rw [if_neg (by simp only [hb]; exact Bool.false_ne_true)]
    push_neg at hall
    obtain ⟨v, hv, hne⟩ := hall
    have hrows : rows ≠ [] := by rintro rfl; simp at hv
    have hhead : rows.headD [] ∈ rows := by
      cases rows with
      | nil => exact absurd rfl hrows
      | cons a l => exact List.mem_cons_self a l
    constructor
    · constructor
      · intro _; exact ⟨v, hv, rows.headD [], hhead, hne⟩
      · intro _; rfl
    · intro hforall
      exact absurd (hforall v hv (rows.headD []) hhead) hne

/-- C6 witness: mismatched lengths `[1]` vs `[2, 3]`. -/
theorem writeSeq_dimension_witness :
    (writeSeq [[1], [2, 3]] = Except.error CoreError.DimensionMismatch ↔
      ∃ u ∈ ([[1], [2, 3]] : List StoreVec), ∃ v ∈ ([[1], [2, 3]] : List StoreVec),
        u.length ≠ v.length) ∧
    ((∀ u ∈ ([[1], [2, 3]] : List StoreVec), ∀ v ∈ ([[1], [2, 3]] : List StoreVec),
        u.length = v.length) →
      writeSeq [[1], [2, 3]] = Except.ok (artifactBytes 1 [[1], [2, 3]])) :=
  writeSeq_dimension [[1], [2, 3]]

/-- **C10.** Any artifact accepted and produced by `write` (header fields in
`int32` range) has payload length exactly `N*D*4`, and `read` on it never
takes the `TruncatedFile` branch. -/
theorem write_never_truncated (D : Nat) (rows : List StoreVec) (a : List Nat)
    (h : write D rows = Except.ok a)
    (hN31 : rows.length < 2 ^ 31) (hD31 : D < 2 ^ 31) :
    a.length = 8 + rows.length * D * 4 ∧
    read a ≠ Except.error CoreError.TruncatedFile := by
  have hdim : ∀ v ∈ rows, v.length = D := by
    by_contra hne
    have hb : rows.all (fun v => v.length = D) = false := by
      simp only [List.all_eq_false, decide_eq_true_eq]
      push_neg at hne
      obtain ⟨v, hv, hvne⟩ := hne
      exact ⟨v, hv, by simpa using hvne⟩
    unfold write at h
    rw [if_neg (by simp [hb])] at h
    exact absurd h (by simp)
  have ha : a = artifactBytes D rows := by
    rw [write_ok D rows hdim] at h
    exact (Except.ok.injEq _ _).mp h.symm
  subst ha
  constructor
  · show (word32le rows.length ++ word32le D ++ payloadBytes rows).length = _
    simp [word32le_length, payloadBytes_length D rows hdim]
    omega
  · show read (word32le rows.length ++ word32le D ++ payloadBytes rows) ≠ _
    simp only [word32le, List.cons_append, List.nil_append]
    rw [read]
    simp only []
    rw [decWord32_word32le _ (by omega : rows.length < 2 ^ 32),
      decWord32_word32le _ (by omega : D < 2 ^ 32),
      asInt32_small _ hN31, asInt32_small _ hD31]
    by_cases hD0 : D = 0
    · rw [if_pos (by simp [hD0])]
      simp
    · rw [if_neg (by omega)]
      simp only [Int.toNat_natCast]
      rw [if_pos (payloadBytes_length D rows hdim)]
      simp

/-- C10 witness at a concrete 2×2 store. -/
theorem write_never_truncated_witness :
    (artifactBytes 2 [[1, 2], [3, 4]]).length = 8 + 2 * 2 * 4 ∧
    read (artifactBytes 2 [[1, 2], [3, 4]]) ≠ Except.error CoreError.TruncatedFile :=
  write_never_truncated 2 [[1, 2], [3, 4]] (artifactBytes 2 [[1, 2], [3, 4]])
    (write_ok 2 [[1, 2], [3, 4]] (by decide)) (by decide) (by decide)

/-- **C9.** Two recipes agreeing on title, description and the first 10
ingredients produce the same search text (hence the same first 2000
characters) and the identical text is passed to the embedding model: the
remaining fields, ingredients beyond the 10th, and characters beyond
position 2000 have no influence on the stored embedding input. -/
theorem embedInput_depends_only (r1 r2 : Recipe)
    (ht : r1.title = r2.title) (hd : r1.description = r2.description)
    (hi : r1.ingredients.take 10 = r2.ingredients.take 10) :
    create_search_text r1 = create_search_text r2 ∧ embedInput r1 = embedInput r2 := by
  have h1 : (r1.ingredients = []) ↔ (r2.ingredients = []) := by
    constructor
    · intro h
      cases h2 : r2.ingredients with
      | nil => rfl
      | cons a l => rw [h, h2] at hi; simp at hi
    · intro h
      cases h2 : r1.ingredients with
      | nil => rfl
      | cons a l => rw [h, h2] at hi; simp at hi
  have hmain : create_search_text r1 = create_search_text r2 := by
    unfold create_search_text
    rw [ht, hd, hi]
    simp only [ne_eq, h1]
  exact ⟨hmain, congrArg (fun s => s.take 2000) hmain⟩

/-- C9 witness: recipes differing only in the 11th ingredient, rating and id
feed the identical text to the embedding model. -/
theorem embedInput_depends_only_witness :
    create_search_text
        ⟨some "Pie", some "Tasty", ["a", "b", "c", "d", "e", "f", "g", "h", "i", "j",
          "extra"], some "4.5", some "7"⟩
      = create_search_text
        ⟨some "Pie", some "Tasty", ["a", "b", "c", "d", "e", "f", "g", "h", "i", "j"],
          none, some "8"⟩ ∧
    embedInput
        ⟨some "Pie", some "Tasty", ["a", "b", "c", "d", "e", "f", "g", "h", "i", "j",
          "extra"], some "4.5", some "7"⟩
      = embedInput
        ⟨some "Pie", some "Tasty", ["a", "b", "c", "d", "e", "f", "g", "h", "i", "j"],
          none, some "8"⟩ :=
  embedInput_depends_only _ _ rfl rfl rfl

/-- **C5.** `search` fails with `EmptyIndex` on an empty index (this check
comes first, so it takes precedence when the query is also malformed), fails
with `DimensionMismatch` on a non-empty index when the query length differs
from `D`, and in all other cases returns a result rather than an error. -/
theorem search_error_contract (idx : HIndex) (q : Vec) (k ef : Nat) :
    (idx.vecs.length = 0 → search idx q k ef = Except.error CoreError.EmptyIndex) ∧
    (idx.vecs.length ≠ 0 → q.length ≠ idx.dim →
      search idx q k ef = Except.error CoreError.DimensionMismatch) ∧
    (idx.vecs.length ≠ 0 → q.length = idx.dim →
      search idx q k ef = Except.ok (searchCore idx q k ef)) := by
  refine ⟨fun h1 => ?_, fun h1 h2 => ?_, fun h1 h2 => ?_⟩
  · simp [search, h1]
  · simp [search, h1, h2]
  · simp [search, h1, h2]

/-- C5 witness: the three cases at concrete inputs. -/
theorem search_error_contract_witness :
    search exIdxEmpty [1] 5 10 = Except.error CoreError.EmptyIndex ∧
    search exIdx [1, 2] 5 10 = Except.error CoreError.DimensionMismatch ∧
    search exIdx [1] 5 10 = Except.ok (searchCore exIdx [1] 5 10) :=
  ⟨(search_error_contract exIdxEmpty [1] 5 10).1 rfl,
   (search_error_contract exIdx [1, 2] 5 10).2.1 (by decide) (by decide),
   (search_error_contract exIdx [1] 5 10).2.2 (by decide) rfl⟩

/-- **C8.** For every result pair `(id, distance)` returned by the index
search, the pipeline reports the user-facing score `1 - distance` for that
id and joins the id with the external metadata, altering neither the ids nor
their order. -/
theorem queryByText_presentation (embed : String → Option Vec)
    (getMetadata : Nat → RecipeMeta) (idx : HIndex) (text : String) (k ef : Nat)
    (q : Vec) (rs : List (Nat × ℚ))
    (hq : embed text = some q) (hs : search idx q k ef = Except.ok rs) :
    queryByText embed getMetadata idx text k ef
      = Except.ok (rs.map (fun p => ⟨p.1, 1 - p.2, getMetadata p.1⟩)) ∧
    ∀ out, queryByText embed getMetadata idx text k ef = Except.ok out →
      out.map RankedResult.rid = rs.map Prod.fst ∧
      out.map RankedResult.score = rs.map (fun p => 1 - p.2) ∧
      out.map RankedResult.meta = rs.map (fun p => getMetadata p.1) := by
  have h1 : queryByText embed getMetadata idx text k ef
      = Except.ok (rs.map (fun p => ⟨p.1, 1 - p.2, getMetadata p.1⟩)) := by
    simp only [queryByText, hq, hs]
    rfl
  refine ⟨h1, fun out hout => ?_⟩
  rw [h1] at hout
  obtain rfl : rs.map (fun p => (⟨p.1, 1 - p.2, getMetadata p.1⟩ : RankedResult)) = out :=
    by exact (Except.ok.injEq _ _).mp hout
  simp [List.map_map, Function.comp]

/-- C8 witness: the pipeline at a concrete index, query and metadata table. -/
theorem queryByText_presentation_witness :
    queryByText (fun _ => some [1]) (fun i => ⟨"t", "d", (i : ℚ)⟩) exIdx "pie" 1 2
      = Except.ok ((searchCore exIdx [1] 1 2).map
          (fun p => ⟨p.1, 1 - p.2, ⟨"t", "d", (p.1 : ℚ)⟩⟩)) ∧
    ∀ out, queryByText (fun _ => some [1]) (fun i => ⟨"t", "d", (i : ℚ)⟩) exIdx "pie" 1 2
        = Except.ok out →
      out.map RankedResult.rid = (searchCore exIdx [1] 1 2).map Prod.fst ∧
      out.map RankedResult.score = (searchCore exIdx [1] 1 2).map (fun p => 1 - p.2) ∧
      out.map RankedResult.meta
        = (searchCore exIdx [1] 1 2).map (fun p => (⟨"t", "d", (p.1 : ℚ)⟩ : RecipeMeta)) :=
  queryByText_presentation (fun _ => some [1]) (fun i => ⟨"t", "d", (i : ℚ)⟩)
    exIdx "pie" 1 2 [1] (searchCore exIdx [1] 1 2) rfl (by simp [search, exIdx])

/-! ### Codec round-trip lemmas -/

theorem decTake_enc (xs rest : List Nat) :
    decTake xs.length (xs ++ rest) = some (xs, rest) := by
  induction xs with
  | nil => rfl
  | cons x l ih => simp [decTake, ih]

theorem decList_enc (xs rest : List Nat) :
    decList (encList xs ++ rest) = some (xs, rest) := by
  simp [encList, decList, decTake_enc]

theorem decLists_enc (ls : List (List Nat)) (rest : List Nat) :
    decLists ls.length (ls.flatMap encList ++ rest) = some (ls, rest) := by
  induction ls generalizing rest with
  | nil => rfl
  | cons l ls ih =>
    simp only [List.flatMap_cons, List.length_cons, List.append_assoc]
    rw [decLists, decList_enc]
    simp [ih]

theorem decQ_enc (x : ℚ) (rest : List Nat) :
    decQ (encQ x ++ rest) = some (x, rest) := by
  by_cases hneg : x.num < 0
  · have habs : (x.num.natAbs : Int) = -x.num := by omega
    simp only [encQ, if_pos hneg, List.cons_append, List.nil_append, decQ,
      if_pos rfl]
    rw [habs, ← Rat.neg_mkRat, neg_neg, Rat.mkRat_self]
    simp
  · have habs : (x.num.natAbs : Int) = x.num := by omega
    simp only [encQ, if_neg hneg, List.cons_append, List.nil_append, decQ]
    rw [if_neg (by decide : ¬ (0 : Nat) = 1), habs, Rat.mkRat_self]

theorem decQs_enc (v : Vec) (rest : List Nat) :
    decQs v.length (v.flatMap encQ ++ rest) = some (v, rest) := by
  induction v generalizing rest with
  | nil => rfl
  | cons x l ih =>
    simp only [List.flatMap_cons, List.length_cons, List.append_assoc]
    rw [decQs, decQ_enc]
    simp [ih]

theorem decVecQ_enc (v : Vec) (rest : List Nat) :
    decVecQ (encVecQ v ++ rest) = some (v, rest) := by
  show decVecQ (v.length :: (v.flatMap encQ ++ rest)) = some (v, rest)
  rw [decVecQ, decQs_enc]

theorem decVecQs_enc (vs : List Vec) (rest : List Nat) :
    decVecQs vs.length (vs.flatMap encVecQ ++ rest) = some (vs, rest) := by
  induction vs generalizing rest with
  | nil => rfl
  | cons v l ih =>
    simp only [List.flatMap_cons, List.length_cons, List.append_assoc]
    rw [decVecQs, decVecQ_enc]
    simp [ih]

theorem decNode_enc (nd : GraphNode) (rest : List Nat) :
    decNode (encNode nd ++ rest) = some (nd, rest) := by
  show decNode (nd.layer :: nd.nbrs.length :: (nd.nbrs.flatMap encList ++ rest))
      = some (nd, rest)
  rw [decNode, decLists_enc]
  rfl

theorem decNodes_enc (nds : List GraphNode) (rest : List Nat) :
    decNodes nds.length (nds.flatMap encNode ++ rest) = some (nds, rest) := by
  induction nds generalizing rest with
  | nil => rfl
  | cons nd l ih =>
    simp only [List.flatMap_cons, List.length_cons, List.append_assoc]
    rw [decNodes, decNode_enc]
    simp [ih]

/-- Bit-exact reload: `load` inverts `save` on a well-formed index. -/
theorem load_save (idx : HIndex) (h : WF idx) :
    load (save idx) = Except.ok idx := by
  have hn : idx.nodes.length = idx.vecs.length := by
    have := h
    unfold WF wfB at this
    simp only [Bool.and_eq_true, decide_eq_true_eq] at this
    exact this.1.1.1.1
  have haux : loadAux idx.dim idx.mParam idx.entry idx.vecs.length
      (idx.vecs.flatMap encVecQ ++ idx.nodes.flatMap encNode) = some idx := by
    unfold loadAux
    rw [show idx.vecs.flatMap encVecQ ++ idx.nodes.flatMap encNode
        = idx.vecs.flatMap encVecQ ++ (idx.nodes.flatMap encNode ++ []) from by simp]
    rw [decVecQs_enc, Option.some_bind]
    rw [show decNodes idx.vecs.length (idx.nodes.flatMap encNode ++ [])
        = some (idx.nodes, []) from by rw [← hn]; exact decNodes_enc idx.nodes []]
    rw [Option.some_bind]
    simp only [List.isEmpty_nil, Bool.true_and]
    rw [if_pos (by exact h)]
  show load (idx.dim :: idx.mParam :: idx.entry :: idx.vecs.length ::
      (idx.vecs.flatMap encVecQ ++ idx.nodes.flatMap encNode)) = Except.ok idx
  rw [load, haux]

/-- **C1.** For every well-formed built index, `load(save(index))` succeeds
and the reloaded index returns exactly the same `search` results (same ids,
same order, same distances) as the original for every query, `k` and `ef`. -/
theorem search_after_reload (idx : HIndex) (h : WF idx) :
    ∃ idx2, load (save idx) = Except.ok idx2 ∧
      ∀ q k ef, search idx2 q k ef = search idx q k ef :=
  ⟨idx, load_save idx h, fun _ _ _ => rfl⟩

/-- C1 witness at a concrete two-node index. -/
theorem search_after_reload_witness :
    ∃ idx2, load (save exIdx) = Except.ok idx2 ∧
      ∀ q k ef, search idx2 q k ef = search exIdx q k ef :=
  search_after_reload exIdx (by decide)

theorem keyRel_iff (idx : HIndex) (q : Vec) (i j : Nat) :
    keyRel idx q i j ↔
      (dOf idx q i < dOf idx q j ∨ (dOf idx q i = dOf idx q j ∧ i < j)) := by
  simp [keyRel, keyLtB]

theorem keyRel_irrefl (idx : HIndex) (q : Vec) (i : Nat) : ¬ keyRel idx q i i := by
  simp [keyRel_iff]

theorem keyRel_trans (idx : HIndex) (q : Vec) {i j l : Nat} :
    keyRel idx q i j → keyRel idx q j l → keyRel idx q i l := by
  simp only [keyRel_iff]
  rintro (h1 | ⟨h1, h1n⟩) (h2 | ⟨h2, h2n⟩)
  · exact Or.inl (h1.trans h2)
  · exact Or.inl (h2 ▸ h1)
  · exact Or.inl (h1 ▸ h2)
  · exact Or.inr ⟨h1.trans h2, h1n.trans h2n⟩

theorem keyRel_conn (idx : HIndex) (q : Vec) {i j : Nat} (hne : i ≠ j) :
    keyRel idx q i j ∨ keyRel idx q j i := by
  simp only [keyRel_iff]
  rcases lt_trichotomy (dOf idx q i) (dOf idx q j) with h | h | h
  · exact Or.inl (Or.inl h)
  · rcases Nat.lt_or_ge i j with hij | hij
    · exact Or.inl (Or.inr ⟨h, hij⟩)
    · exact Or.inr (Or.inr ⟨h.symm, lt_of_le_of_ne hij (Ne.symm hne)⟩)
  · exact Or.inr (Or.inl h)

theorem keyRel_ne (idx : HIndex) (q : Vec) {i j : Nat} (h : keyRel idx q i j) :
    i ≠ j := by
  rintro rfl
  exact keyRel_irrefl idx q i h

/-! ### `insKey` -/

theorem insKey_mem (idx : HIndex) (q : Vec) (e y : Nat) (l : List Nat) :
    y ∈ insKey idx q e l ↔ y = e ∨ y ∈ l := by
  induction l with
  | nil => simp [insKey]
  | cons x xs ih =>
    by_cases h : keyLtB idx q e x = true
    · simp [insKey, h]
    · simp only [insKey, Bool.not_eq_true] at h ⊢
      rw [h]
      simp [ih]
      tauto

theorem insKey_length (idx : HIndex) (q : Vec) (e : Nat) (l : List Nat) :
    (insKey idx q e l).length = l.length + 1 := by
  induction l with
  | nil => rfl
  | cons x xs ih =>
    by_cases h : keyLtB idx q e x = true
    · simp [insKey, h]
    · simp only [insKey, Bool.not_eq_true] at h ⊢
      rw [h]
      simp [ih]

theorem insKey_pairwise (idx : HIndex) (q : Vec) (e : Nat) (l : List Nat)
    (hs : List.Pairwise (keyRel idx q) l) (hne : ∀ x ∈ l, x ≠ e) :
    List.Pairwise (keyRel idx q) (insKey idx q e l) := by
  induction l with
  | nil => simp [insKey]
  | cons x xs ih =>
    obtain ⟨hx, hxs⟩ := List.pairwise_cons.mp hs
    have hxe : x ≠ e := hne x (List.mem_cons_self x xs)
    by_cases h : keyLtB idx q e x = true
    · simp only [insKey, h, if_true]
      refine List.pairwise_cons.mpr ⟨?_, hs⟩
      intro y hy
      rcases List.mem_cons.mp hy with rfl | hy2
      · exact h
      · exact keyRel_trans idx q h (hx y hy2)
    · simp only [insKey, Bool.not_eq_true] at h ⊢
      rw [h]
      refine List.pairwise_cons.mpr ⟨?_, ih hxs (fun y hy => hne y (List.mem_cons_of_mem x hy))⟩
      intro y hy
      rcases (insKey_mem idx q e y xs).mp hy with rfl | hy2
      · rcases keyRel_conn idx q hxe with hc | hc
        · exact hc
        · exact absurd hc (by simp [keyRel, h])
      · exact hx y hy2

theorem pairwise_nodup (idx : HIndex) (q : Vec) (l : List Nat)
    (h : List.Pairwise (keyRel idx q) l) : l.Nodup :=
  h.imp (fun hab => keyRel_ne idx q hab)

/-! ### `minBy` -/

theorem minBy_none (idx : HIndex) (q : Vec) (l : List Nat) :
    minBy idx q l = none ↔ l = [] := by
  cases l with
  | nil => simp [minBy]
  | cons x xs =>
    simp only [minBy]
    cases minBy idx q xs <;> simp

theorem minBy_mem (idx : HIndex) (q : Vec) (l : List Nat) (c : Nat)
    (h : minBy idx q l = some c) : c ∈ l := by
  induction l generalizing c with
  | nil => simp [minBy] at h
  | cons x xs ih =>
    simp only [minBy] at h
    cases hm : minBy idx q xs with
    | none =>
      rw [hm] at h
      simp only [Option.some.injEq] at h
      subst h
      exact List.mem_cons_self x xs
    | some m =>
      rw [hm] at h
      simp only [Option.some.injEq] at h
      by_cases hlt : keyLtB idx q x m = true
      · rw [if_pos hlt] at h
        subst h
        exact List.mem_cons_self x xs
      · rw [if_neg hlt] at h
        subst h
        exact List.mem_cons_of_mem x (ih m hm)

theorem minBy_min (idx : HIndex) (q : Vec) (l : List Nat) (c : Nat)
    (h : minBy idx q l = some c) : ∀ y ∈ l, ¬ keyRel idx q y c := by
  induction l generalizing c with
  | nil => simp [minBy] at h
  | cons x xs ih =>
    intro y hy
    simp only [minBy] at h
    cases hm : minBy idx q xs with
    | none =>
      rw [hm] at h
      simp only [Option.some.injEq] at h
      subst h
      have hxs : xs = [] := (minBy_none idx q xs).mp hm
      subst hxs
      rcases List.mem_singleton.mp hy with rfl
      exact keyRel_irrefl idx q y
    | some m =>
      rw [hm] at h
      simp only [Option.some.injEq] at h
      by_cases hlt : keyLtB idx q x m = true
      · rw [if_pos hlt] at h
        subst h
        rcases List.mem_cons.mp hy with rfl | hy2
        · exact keyRel_irrefl idx q y
        · intro hyc
          exact ih m hm y hy2 (keyRel_trans idx q hyc hlt)
      · rw [if_neg hlt] at h
        subst h
        rcases List.mem_cons.mp hy with rfl | hy2
        · exact fun hyc => hlt hyc
        · exact ih m hm y hy2

/-! ### Well-formedness projections -/

theorem wf_counts (idx : HIndex) (h : WF idx) :
    idx.nodes.length = idx.vecs.length := by
  unfold WF wfB at h
  simp only [Bool.and_eq_true, decide_eq_true_eq] at h
  exact h.1.1.1.1

theorem wf_entry_lt (idx : HIndex) (h : WF idx) (hN : 0 < idx.vecs.length) :
    idx.entry < idx.nodes.length := by
  unfold WF wfB at h
  simp only [Bool.and_eq_true, Bool.or_eq_true, decide_eq_true_eq] at h
  rcases h.1.1.2 with h0 | hlt
  · omega
  · exact hlt

theorem wf_nbrs_lt (idx : HIndex) (h : WF idx) (l c : Nat) :
    ∀ e ∈ nbrsAt idx l c, e < idx.nodes.length := by
  intro e he
  unfold WF wfB at h
  simp only [Bool.and_eq_true, decide_eq_true_eq, List.all_eq_true] at h
  have hnodes := h.1.2
  by_cases hc : c < idx.nodes.length
  · have hnode : nodeAt idx c = idx.nodes[c] := by
      unfold nodeAt
      exact List.getD_eq_getElem _ _ hc
    obtain ⟨-, hlists⟩ := hnodes idx.nodes[c] (List.getElem_mem hc)
    by_cases hl : l < idx.nodes[c].nbrs.length
    · have hnb : nbrsAt idx l c = idx.nodes[c].nbrs[l] := by
        unfold nbrsAt
        rw [hnode]
        exact List.getD_eq_getElem _ _ hl
      rw [hnb] at he
      exact hlists _ (List.getElem_mem hl) e he
    · have hnb : nbrsAt idx l c = [] := by
        unfold nbrsAt
        rw [hnode]
        exact List.getD_eq_default _ _ (by omega)
      rw [hnb] at he
      simp at he
  · have hnode : nodeAt idx c = default := by
      unfold nodeAt
      exact List.getD_eq_default _ _ (by omega)
    have hnb : nbrsAt idx l c = [] := by
      unfold nbrsAt
      rw [hnode]
      rfl
    rw [hnb] at he
    simp at he

/-! ### Beam-search invariants -/

/-- In a keyRel-sorted list, an element not among the first `n` is dominated
by each of the first `n`. -/
theorem take_dom (idx : HIndex) (q : Vec) (l : List Nat) (n : Nat)
    (hs : List.Pairwise (keyRel idx q) l) (x : Nat) (hx : x ∈ l)
    (hnx : x ∉ l.take n) : ∀ b ∈ l.take n, keyRel idx q b x := by
  have hsplit := List.take_append_drop n l
  rw [← hsplit] at hs hx
  have hx2 : x ∈ l.drop n := by
    rcases List.mem_append.mp hx with h | h
    · exact absurd h hnx
    · exact h
  intro b hb
  exact (List.pairwise_append.mp hs).2.2 b hb x hx2

/-- In a keyRel-sorted list, every element is the last or dominated by it. -/
theorem lastDom (idx : HIndex) (q : Vec) :
    ∀ (l : List Nat), List.Pairwise (keyRel idx q) l →
      ∀ w, l.getLast? = some w → ∀ b ∈ l, b = w ∨ keyRel idx q b w := by
  intro l
  induction l with
  | nil => intro _ w hw; simp at hw
  | cons x t ih =>
    intro hs w hw b hb
    cases t with
    | nil =>
      simp at hw
      rcases List.mem_singleton.mp hb with rfl
      exact Or.inl hw
    | cons y t2 =>
      rw [List.getLast?_cons_cons] at hw
      obtain ⟨hx, hs2⟩ := List.pairwise_cons.mp hs
      rcases List.mem_cons.mp hb with rfl | hb2
      · have hy := ih hs2 w hw y (List.mem_cons_self y t2)
        have hxy : keyRel idx q b y := hx y (List.mem_cons_self y t2)
        rcases hy with rfl | hyw
        · exact Or.inr hxy
        · exact Or.inr (keyRel_trans idx q hxy hyw)
      · exact ih hs2 w hw b hb2

theorem getLast?_mem_list (l : List Nat) (w : Nat) (h : l.getLast? = some w) :
    w ∈ l := by
  have hm : w ∈ l.getLast? := Option.mem_def.mpr h
  obtain ⟨hne, heq⟩ := List.mem_getLast?_eq_getLast hm
  rw [heq]
  exact List.getLast_mem hne

theorem evalNbr_spec (idx : HIndex) (q : Vec) (ef : Nat) (st : BState) (e : Nat)
    (hinv : BInv idx q ef st) (he : e < idx.nodes.length) :
    BInv idx q ef (evalNbr idx q ef st e) ∧
    st.best.length ≤ (evalNbr idx q ef st e).best.length ∧
    (∀ v ∈ st.visited, v ∈ (evalNbr idx q ef st e).visited) ∧
    e ∈ (evalNbr idx q ef st e).visited ∧
    (∀ v ∈ st.frontier, v ∈ (evalNbr idx q ef st e).frontier) ∧
    (evalNbr idx q ef st e).frontier.length + st.visited.length ≤
      st.frontier.length + (evalNbr idx q ef st e).visited.length ∧
    (∀ v ∈ (evalNbr idx q ef st e).visited, v ∈ st.visited ∨
      ((evalNbr idx q ef st e).best.length < ef → v ∈ (evalNbr idx q ef st e).frontier)) := by
  by_cases hv : e ∈ st.visited
  · rw [show evalNbr idx q ef st e = st from by simp [evalNbr, hv]]
    exact ⟨hinv, le_refl _, fun v h => h, hv, fun v h => h, by omega,
      fun v h => Or.inl h⟩
  · by_cases hca : canAdd idx q ef st e = true
    · rw [show evalNbr idx q ef st e
          = ⟨e :: st.visited, e :: st.frontier, (insKey idx q e st.best).take ef⟩
          from by simp [evalNbr, hv, hca]]
      have hne : ∀ x ∈ st.best, x ≠ e := fun x hx hxe =>
        hv (hxe ▸ hinv.bsub x hx)
      have hil : (insKey idx q e st.best).length = st.best.length + 1 :=
        insKey_length idx q e st.best
      refine ⟨⟨?_, ?_, ?_, ?_, ?_, ?_, ?_, ?_, ?_, ?_, ?_⟩, ?_, ?_, ?_, ?_, ?_, ?_⟩
      · exact List.nodup_cons.mpr ⟨hv, hinv.vnodup⟩
      · intro v hmem
        rcases List.mem_cons.mp hmem with rfl | h2
        · exact he
        · exact hinv.vrange v h2
      · intro v hmem
        rcases List.mem_cons.mp hmem with rfl | h2
        · exact List.mem_cons_self _ _
        · exact List.mem_cons_of_mem _ (hinv.fsub v h2)
      · intro v hmem
        have h2 := List.take_subset ef _ hmem
        rcases (insKey_mem idx q e v st.best).mp h2 with rfl | h3
        · exact List.mem_cons_self _ _
        · exact List.mem_cons_of_mem _ (hinv.bsub v h3)
      · exact (insKey_pairwise idx q e st.best hinv.bsorted hne).sublist
          (List.take_sublist ef _)
      · rw [List.length_take]
        omega
      · intro hlt v hmem
        rw [List.length_take, hil] at hlt
        have hlt2 : st.best.length + 1 ≤ ef := by omega
        rw [List.take_of_length_le (by omega)]
        rcases List.mem_cons.mp hmem with rfl | h2
        · exact (insKey_mem idx q v v st.best).mpr (Or.inl rfl)
        · exact (insKey_mem idx q e v st.best).mpr
            (Or.inr (hinv.bfull (by omega) v h2))
      · simp
      · exact List.nodup_cons.mpr ⟨fun hef => hv (hinv.fsub e hef), hinv.fnodup⟩
      · intro v hvm hvn b hb
        have hisort : List.Pairwise (keyRel idx q) (insKey idx q e st.best) :=
          insKey_pairwise idx q e st.best hinv.bsorted hne
        rcases List.mem_cons.mp hvm with rfl | hvv
        · exact take_dom idx q _ ef hisort v
            ((insKey_mem idx q v v st.best).mpr (Or.inl rfl)) hvn b hb
        · by_cases hvb : v ∈ st.best
          · exact take_dom idx q _ ef hisort v
              ((insKey_mem idx q e v st.best).mpr (Or.inr hvb)) hvn b hb
          · have hd := hinv.bdom v hvv hvb
            rcases (insKey_mem idx q e b st.best).mp
                (List.take_subset ef _ hb) with rfl | hbb
            · by_cases hblen : st.best.length < ef
              · exact absurd (hinv.bfull hblen v hvv) hvb
              · unfold canAdd at hca
                simp only [Bool.or_eq_true, decide_eq_true_eq] at hca
                rcases hca with hca1 | hca2
                · exact absurd hca1 hblen
                · cases hlast : st.best.getLast? with
                  | none =>
                    rw [hlast] at hca2
                    simp at hca2
                  | some w =>
                    rw [hlast] at hca2
                    have hwv := hd w (getLast?_mem_list st.best w hlast)
                    exact keyRel_trans idx q hca2 hwv
            · exact hd b hbb
      · rw [List.length_take, hil]
        simp only [List.length_cons]
        have := hinv.bcard
        omega
      · rw [List.length_take, hil]
        have := hinv.blen
        omega
      · exact fun v h => List.mem_cons_of_mem _ h
      · exact List.mem_cons_self _ _
      · exact fun v h => List.mem_cons_of_mem _ h
      · simp only [List.length_cons]
        omega
      · intro v hmem
        rcases List.mem_cons.mp hmem with rfl | h2
        · exact Or.inr (fun _ => List.mem_cons_self _ _)
        · exact Or.inl h2
    · rw [show evalNbr idx q ef st e = ⟨e :: st.visited, st.frontier, st.best⟩
          from by simp [evalNbr, hv, hca]]
      have hfull : ef ≤ st.best.length := by
        by_contra hcon
        have : canAdd idx q ef st e = true := by
          unfold canAdd
          simp only [Bool.or_eq_true, decide_eq_true_eq]
          exact Or.inl (by omega)
        exact hca this
      refine ⟨⟨?_, ?_, ?_, ?_, ?_, ?_, ?_, ?_, ?_, ?_, ?_⟩, ?_, ?_, ?_, ?_, ?_, ?_⟩
      · exact List.nodup_cons.mpr ⟨hv, hinv.vnodup⟩
      · intro v hmem
        rcases List.mem_cons.mp hmem with rfl | h2
        · exact he
        · exact hinv.vrange v h2
      · exact fun v h => List.mem_cons_of_mem _ (hinv.fsub v h)
      · exact fun v h => List.mem_cons_of_mem _ (hinv.bsub v h)
      · exact hinv.bsorted
      · exact hinv.blen
      · intro hlt
        dsimp only at hlt
        exact absurd hlt (by omega)
      · simp
      · exact hinv.fnodup
      · intro v hvm hvn b hb
        rcases List.mem_cons.mp hvm with rfl | hvv
        · unfold canAdd at hca
          simp only [Bool.or_eq_true, decide_eq_true_eq] at hca
          push_neg at hca
          obtain ⟨-, h2⟩ := hca
          cases hlast : st.best.getLast? with
          | none =>
            rw [List.getLast?_eq_none_iff] at hlast
            rw [hlast] at hb
            simp at hb
          | some w =>
            rw [hlast] at h2
            have hnw : ¬ keyRel idx q v w := by
              intro hh
              exact h2 hh
            have hvw : v ≠ w := fun hh =>
              hv (hh ▸ hinv.bsub w (getLast?_mem_list _ _ hlast))
            have hwv : keyRel idx q w v := (keyRel_conn idx q hvw).resolve_left hnw
            rcases lastDom idx q st.best hinv.bsorted w hlast b hb with rfl | hbw
            · exact hwv
            · exact keyRel_trans idx q hbw hwv
        · exact hinv.bdom v hvv hvn b hb
      · simp only [List.length_cons]
        have := hinv.bcard
        omega
      · exact le_refl _
      · exact fun v h => List.mem_cons_of_mem _ h
      · exact List.mem_cons_self _ _
      · exact fun v h => h
      · simp only [List.length_cons]
        omega
      · intro v hmem
        rcases List.mem_cons.mp hmem with rfl | h2
        · refine Or.inr (fun hlt => ?_)
          dsimp only at hlt
          exact absurd hlt (by omega)
        · exact Or.inl h2

theorem foldl_evalNbr_spec (idx : HIndex) (q : Vec) (ef : Nat) (l : List Nat)
    (hl : ∀ e ∈ l, e < idx.nodes.length) :
    ∀ st : BState, BInv idx q ef st →
      BInv idx q ef (l.foldl (evalNbr idx q ef) st) ∧
      st.best.length ≤ (l.foldl (evalNbr idx q ef) st).best.length ∧
      (∀ v ∈ st.visited, v ∈ (l.foldl (evalNbr idx q ef) st).visited) ∧
      (∀ e ∈ l, e ∈ (l.foldl (evalNbr idx q ef) st).visited) ∧
      (∀ v ∈ st.frontier, v ∈ (l.foldl (evalNbr idx q ef) st).frontier) ∧
      (l.foldl (evalNbr idx q ef) st).frontier.length + st.visited.length ≤
        st.frontier.length + (l.foldl (evalNbr idx q ef) st).visited.length ∧
      (∀ v ∈ (l.foldl (evalNbr idx q ef) st).visited, v ∈ st.visited ∨
        ((l.foldl (evalNbr idx q ef) st).best.length < ef →
          v ∈ (l.foldl (evalNbr idx q ef) st).frontier)) := by
  induction l with
  | nil =>
    intro st hinv
    exact ⟨hinv, le_refl _, fun v h => h, by simp, fun v h => h,
      le_of_eq rfl, fun v h => Or.inl h⟩
  | cons e l ih =>
    intro st hinv
    have he : e < idx.nodes.length := hl e (List.mem_cons_self e l)
    have hlrest : ∀ x ∈ l, x < idx.nodes.length :=
      fun x hx => hl x (List.mem_cons_of_mem e hx)
    obtain ⟨a1, a2, a3, a4, a5, a6, a7⟩ := evalNbr_spec idx q ef st e hinv he
    obtain ⟨b1, b2, b3, b4, b5, b6, b7⟩ := ih hlrest (evalNbr idx q ef st e) a1
    rw [show (e :: l).foldl (evalNbr idx q ef) st = l.foldl (evalNbr idx q ef)
      (evalNbr idx q ef st e) from rfl]
    refine ⟨b1, le_trans a2 b2, fun v h => b3 v (a3 v h), ?_, fun v h => b5 v (a5 v h),
      by omega, ?_⟩
    · intro x hx
      rcases List.mem_cons.mp hx with rfl | h2
      · exact b3 x a4
      · exact b4 x h2
    · intro v hv
      rcases b7 v hv with h2 | h2
      · rcases a7 v h2 with h3 | h3
        · exact Or.inl h3
        · exact Or.inr (fun hlt => b5 v (h3 (by omega)))
      · exact Or.inr h2

theorem expandAll_spec (idx : HIndex) (q : Vec) (ef : Nat) (hwf : WF idx)
    (c : Nat) (st : BState) (hinv : BInv idx q ef st) :
    BInv idx q ef (expandAll idx q ef st c) ∧
    st.best.length ≤ (expandAll idx q ef st c).best.length ∧
    (∀ v ∈ st.visited, v ∈ (expandAll idx q ef st c).visited) ∧
    (∀ e ∈ nbrsAt idx 0 c, e ∈ (expandAll idx q ef st c).visited) ∧
    (∀ v ∈ st.frontier, v ∈ (expandAll idx q ef st c).frontier) ∧
    (expandAll idx q ef st c).frontier.length + st.visited.length ≤
      st.frontier.length + (expandAll idx q ef st c).visited.length ∧
    (∀ v ∈ (expandAll idx q ef st c).visited, v ∈ st.visited ∨
      ((expandAll idx q ef st c).best.length < ef →
        v ∈ (expandAll idx q ef st c).frontier)) :=
  foldl_evalNbr_spec idx q ef (nbrsAt idx 0 c) (wf_nbrs_lt idx hwf 0 c) st hinv

/-! ### Counting and reachability lemmas -/

theorem nodup_length_le (l : List Nat) (n : Nat) (hnd : l.Nodup)
    (hlt : ∀ v ∈ l, v < n) : l.length ≤ n := by
  have h1 : l.toFinset ⊆ Finset.range n := by
    intro x hx
    rw [List.mem_toFinset] at hx
    exact Finset.mem_range.mpr (hlt x hx)
  have h2 := Finset.card_le_card h1
  rwa [List.toFinset_card_of_nodup hnd, Finset.card_range] at h2

theorem length_ge_of_range_sub (l : List Nat) (n : Nat) (hnd : l.Nodup)
    (hsub : ∀ j < n, j ∈ l) : n ≤ l.length := by
  have h1 : Finset.range n ⊆ l.toFinset := by
    intro x hx
    rw [List.mem_toFinset]
    exact hsub x (Finset.mem_range.mp hx)
  have h2 := Finset.card_le_card h1
  rwa [List.toFinset_card_of_nodup hnd, Finset.card_range] at h2

theorem nodup_subset_length (l1 l2 : List Nat) (hnd : l1.Nodup)
    (hsub : ∀ x ∈ l1, x ∈ l2) : l1.length ≤ l2.length := by
  have h1 : l1.toFinset ⊆ l2.toFinset := by
    intro x hx
    rw [List.mem_toFinset] at hx ⊢
    exact hsub x hx
  have h2 := (Finset.card_le_card h1).trans l2.toFinset_card_le
  rwa [List.toFinset_card_of_nodup hnd] at h2

theorem closeStep_subset (idx : HIndex) (V S : List Nat)
    (hcl : ∀ v ∈ V, ∀ e ∈ nbrsAt idx 0 v, e ∈ V) (hS : ∀ x ∈ S, x ∈ V) :
    ∀ x ∈ closeStep idx S, x ∈ V := by
  intro x hx
  unfold closeStep at hx
  rw [List.mem_dedup] at hx
  rcases List.mem_append.mp hx with h | h
  · exact hS x h
  · obtain ⟨i, hi, hxi⟩ := List.mem_flatMap.mp h
    exact hcl i (hS i hi) x hxi

theorem reachSet_subset (idx : HIndex) (V : List Nat)
    (hcl : ∀ v ∈ V, ∀ e ∈ nbrsAt idx 0 v, e ∈ V) (s : Nat) (hs : s ∈ V) :
    ∀ j ∈ reachSet idx s, j ∈ V := by
  unfold reachSet
  generalize idx.nodes.length = n
  induction n with
  | zero =>
    intro j hj
    rw [Function.iterate_zero_apply] at hj
    rcases List.mem_singleton.mp hj with rfl
    exact hs
  | succ n ih =>
    intro j hj
    rw [Function.iterate_succ_apply'] at hj
    exact closeStep_subset idx V _ hcl ih j hj

/-- At a terminal beam state (empty frontier), the candidate set holds at
least `min ef N` ids. -/
theorem best_final_size (idx : HIndex) (q : Vec) (ef : Nat) (st : BState)
    (hconn : ConnAll idx) (hinv : BInv idx q ef st) (hcl : ClosedInv idx q ef st)
    (hfr : st.frontier = []) :
    min ef idx.nodes.length ≤ st.best.length := by
  by_cases hlt : st.best.length < ef
  · have hclosed : ∀ v ∈ st.visited, ∀ e ∈ nbrsAt idx 0 v, e ∈ st.visited := by
      intro v hv
      exact hcl hlt v hv (by simp [hfr])
    obtain ⟨v0, hv0⟩ := List.exists_mem_of_ne_nil st.visited hinv.vne
    have hv0n : v0 < idx.nodes.length := hinv.vrange v0 hv0
    have hrange : ∀ j < idx.nodes.length, j ∈ st.visited := fun j hj =>
      reachSet_subset idx st.visited hclosed v0 hv0 j (hconn v0 hv0n j hj)
    have hlen : idx.nodes.length ≤ st.visited.length :=
      length_ge_of_range_sub _ _ hinv.vnodup hrange
    have hbv : st.visited.length ≤ st.best.length :=
      nodup_subset_length _ _ hinv.vnodup (hinv.bfull hlt)
    omega
  · omega

/-- Main beam-search lemma: with enough fuel and the §3 connectivity
invariant, the beam returns a keyRel-sorted list of in-range ids of length
exactly `min ef N`-or-more (and at most `ef`). -/
theorem beamLoop_spec (idx : HIndex) (q : Vec) (ef : Nat) (hwf : WF idx)
    (hconn : ConnAll idx) :
    ∀ (fuel : Nat) (st : BState), BInv idx q ef st → ClosedInv idx q ef st →
      2 * (idx.nodes.length - st.visited.length) + st.frontier.length ≤ fuel →
      List.Pairwise (keyRel idx q) (beamLoop idx q ef fuel st) ∧
      (∀ v ∈ beamLoop idx q ef fuel st, v < idx.nodes.length) ∧
      min ef idx.nodes.length ≤ (beamLoop idx q ef fuel st).length ∧
      (beamLoop idx q ef fuel st).length ≤ ef := by
  intro fuel
  induction fuel with
  | zero =>
    intro st hinv hcl hm
    have hfr : st.frontier = [] := List.eq_nil_of_length_eq_zero (by omega)
    rw [show beamLoop idx q ef 0 st = st.best from rfl]
    exact ⟨hinv.bsorted, fun v h => hinv.vrange v (hinv.bsub v h),
      best_final_size idx q ef st hconn hinv hcl hfr, hinv.blen⟩
  | succ fuel ih =>
    intro st hinv hcl hm
    cases hmin : minBy idx q st.frontier with
    | none =>
      have hfr : st.frontier = [] := (minBy_none idx q st.frontier).mp hmin
      rw [show beamLoop idx q ef (fuel + 1) st = st.best from by
        rw [beamLoop, hmin]]
      exact ⟨hinv.bsorted, fun v h => hinv.vrange v (hinv.bsub v h),
        best_final_size idx q ef st hconn hinv hcl hfr, hinv.blen⟩
    | some c =>
      by_cases hstop : shouldStop idx q ef st c = true
      · rw [show beamLoop idx q ef (fuel + 1) st = st.best from by
          rw [beamLoop, hmin]
          simp [hstop]]
        have hef : ef ≤ st.best.length := by
          unfold shouldStop at hstop
          simp only [Bool.and_eq_true, decide_eq_true_eq] at hstop
          exact hstop.1
        exact ⟨hinv.bsorted, fun v h => hinv.vrange v (hinv.bsub v h),
          by omega, hinv.blen⟩
      · have hcin : c ∈ st.frontier := minBy_mem idx q st.frontier c hmin
        have hinv1 : BInv idx q ef { st with frontier := st.frontier.erase c } :=
          ⟨hinv.vnodup, hinv.vrange, fun v h => hinv.fsub v (List.erase_subset _ _ h),
            hinv.bsub, hinv.bsorted, hinv.blen, hinv.bfull, hinv.vne,
            hinv.fnodup.erase c, hinv.bdom, hinv.bcard⟩
        obtain ⟨e1, e2, e3, e4, e5, e6, e7⟩ :=
          expandAll_spec idx q ef hwf c { st with frontier := st.frontier.erase c } hinv1
        have hcl2 : ClosedInv idx q ef
            (expandAll idx q ef { st with frontier := st.frontier.erase c } c) := by
          intro hlt2 v hv hvf e he
          by_cases hvc : v = c
          · subst hvc
            exact e4 e he
          · rcases e7 v hv with hvold | hright
            · have hvf1 : v ∉ ({ st with frontier := st.frontier.erase c } : BState).frontier :=
                fun hh => hvf (e5 v hh)
              have hvf0 : v ∉ st.frontier := by
                intro hh
                exact hvf1 ((List.mem_erase_of_ne hvc).mpr hh)
              have hlt : st.best.length < ef := by
                have h2 := e2
                dsimp only at h2
                omega
              exact e3 e (hcl hlt v hvold hvf0 e he)
            · exact absurd (hright hlt2) hvf
        have hfr_len : (st.frontier.erase c).length = st.frontier.length - 1 :=
          List.length_erase_of_mem hcin
        have hfr_pos : 0 < st.frontier.length := List.length_pos_of_mem hcin
        have hv2le : (expandAll idx q ef { st with frontier := st.frontier.erase c }
            c).visited.length ≤ idx.nodes.length :=
          nodup_length_le _ _ e1.vnodup e1.vrange
        have he6 := e6
        dsimp only at he6 e3
        have hv1le : st.visited.length ≤ (expandAll idx q ef
            { st with frontier := st.frontier.erase c } c).visited.length :=
          nodup_subset_length _ _ hinv.vnodup e3
        rw [show beamLoop idx q ef (fuel + 1) st = beamLoop idx q ef fuel
            (expandAll idx q ef { st with frontier := st.frontier.erase c } c) from by
          rw [beamLoop, hmin]
          simp [hstop]]
        exact ih _ e1 hcl2 (by rw [hfr_len] at he6; omega)

/-! ### Descent stays in range; initial state -/

theorem greedyStep_lt (idx : HIndex) (q : Vec) (l cur : Nat) (hwf : WF idx)
    (hcur : cur < idx.nodes.length) :
    greedyStep idx q l cur < idx.nodes.length := by
  unfold greedyStep
  cases hm : minBy idx q (nbrsAt idx l cur) with
  | none => exact hcur
  | some m =>
    show (if keyLtB idx q m cur = true then m else cur) < idx.nodes.length
    by_cases hlt : keyLtB idx q m cur = true
    · rw [if_pos hlt]
      exact wf_nbrs_lt idx hwf l cur m (minBy_mem _ _ _ _ hm)
    · rw [if_neg hlt]
      exact hcur

theorem greedyAt_lt (idx : HIndex) (q : Vec) (l : Nat) (hwf : WF idx) :
    ∀ (fuel cur : Nat), cur < idx.nodes.length →
      greedyAt idx q l fuel cur < idx.nodes.length := by
  intro fuel
  induction fuel with
  | zero => intro cur h; exact h
  | succ fuel ih =>
    intro cur h
    show (if greedyStep idx q l cur = cur then cur
      else greedyAt idx q l fuel (greedyStep idx q l cur)) < idx.nodes.length
    by_cases heq : greedyStep idx q l cur = cur
    · rw [if_pos heq]
      exact h
    · rw [if_neg heq]
      exact ih _ (greedyStep_lt idx q l cur hwf h)

theorem foldl_greedy_lt (idx : HIndex) (q : Vec) (hwf : WF idx) (ls : List Nat) :
    ∀ cur, cur < idx.nodes.length →
      ls.foldl (fun cur l => greedyAt idx q l idx.nodes.length cur) cur
        < idx.nodes.length := by
  induction ls with
  | nil => exact fun cur h => h
  | cons a ls ih =>
    intro cur h
    exact ih _ (greedyAt_lt idx q a hwf idx.nodes.length cur h)

theorem descend_lt (idx : HIndex) (q : Vec) (hwf : WF idx)
    (hN : 0 < idx.vecs.length) : descend idx q < idx.nodes.length := by
  unfold descend
  exact foldl_greedy_lt idx q hwf _ idx.entry (wf_entry_lt idx hwf hN)

theorem startState_inv (idx : HIndex) (q : Vec) (ef s0 : Nat)
    (hs0 : s0 < idx.nodes.length) :
    BInv idx q ef (startState ef s0) ∧ ClosedInv idx q ef (startState ef s0) := by
  constructor
  · refine ⟨?_, ?_, ?_, ?_, ?_, ?_, ?_, ?_, ?_, ?_, ?_⟩
    · simp [startState]
    · intro v hv
      rcases List.mem_singleton.mp hv with rfl
      exact hs0
    · exact fun v h => h
    · exact fun v h => List.take_subset _ _ h
    · exact (List.pairwise_singleton _ s0).sublist (List.take_sublist _ _)
    · simp [startState, List.length_take]
    · intro hlt v hv
      have hef : 1 ≤ ef := by
        by_contra hc
        have h0 : ef = 0 := by omega
        subst h0
        simp [startState] at hlt
      rw [show (startState ef s0).best = [s0].take ef from rfl,
        List.take_of_length_le (by simp [hef])]
      exact hv
    · simp [startState]
    · simp [startState]
    · intro v hv hvn b hb
      rcases List.mem_singleton.mp hv with rfl
      by_cases hef : 1 ≤ ef
      · rw [show (startState ef v).best = [v].take ef from rfl,
          List.take_of_length_le (by simp [hef])] at hvn
        exact absurd (List.mem_singleton.mpr rfl) hvn
      · have h0 : ef = 0 := by omega
        subst h0
        rw [show (startState 0 v).best = [v].take 0 from rfl] at hb
        simp at hb
    · simp [startState, List.length_take]
  · intro _ v hv hvf
    exact absurd hv hvf

/-- **C3.** On a well-formed index satisfying the §3 layer-0 connectivity
invariant, with `N > 0` stored vectors, a query of dimension `D` and any
`k ≤ ef`, `search` returns exactly `min k N` results, sorted ascending by
distance with ties broken by lower id. -/
theorem search_k_exact (idx : HIndex) (q : Vec) (k ef : Nat)
    (hwf : WF idx) (hconn : ConnAll idx)
    (hN : 0 < idx.vecs.length) (hq : q.length = idx.dim) (hk : k ≤ ef) :
    ∃ rs, search idx q k ef = Except.ok rs ∧
      rs.length = min k idx.vecs.length ∧
      List.Pairwise (fun p1 p2 : Nat × ℚ =>
        p1.2 < p2.2 ∨ (p1.2 = p2.2 ∧ p1.1 < p2.1)) rs := by
  have hNn : 0 < idx.nodes.length := by
    rw [wf_counts idx hwf]
    exact hN
  have hcore : search idx q k ef = Except.ok (searchCore idx q k ef) := by
    unfold search
    rw [if_neg (by omega), if_neg (by omega)]
  have hs0 := descend_lt idx q hwf hN
  obtain ⟨hinv0, hcl0⟩ := startState_inv idx q ef (descend idx q) hs0
  have hmeas : 2 * (idx.nodes.length - (startState ef (descend idx q)).visited.length)
      + (startState ef (descend idx q)).frontier.length ≤ 2 * idx.nodes.length + 2 := by
    simp [startState]
    omega
  obtain ⟨hsort, hrange, hminlen, hmaxlen⟩ := beamLoop_spec idx q ef hwf hconn
    (2 * idx.nodes.length + 2) (startState ef (descend idx q)) hinv0 hcl0 hmeas
  set best := beamLoop idx q ef (2 * idx.nodes.length + 2)
    (startState ef (descend idx q)) with hbest
  have hbN : best.length ≤ idx.nodes.length :=
    nodup_length_le _ _ (pairwise_nodup idx q best hsort) hrange
  refine ⟨searchCore idx q k ef, hcore, ?_, ?_⟩
  · show ((best.take k).map (fun i => (i, dOf idx q i))).length = min k idx.vecs.length
    rw [List.length_map, List.length_take]
    rw [← wf_counts idx hwf]
    omega
  · show List.Pairwise _ ((best.take k).map (fun i => (i, dOf idx q i)))
    rw [List.pairwise_map]
    exact (hsort.sublist (List.take_sublist _ _)).imp
      (fun hab => (keyRel_iff idx q _ _).mp hab)

/-- C3 witness: the two-node connected index with `k = 1 ≤ ef = 2` returns
exactly `min 1 2 = 1` sorted result. -/
theorem search_k_exact_witness :
    ∃ rs, search exIdx [1] 1 2 = Except.ok rs ∧
      rs.length = min 1 exIdx.vecs.length ∧
      List.Pairwise (fun p1 p2 : Nat × ℚ =>
        p1.2 < p2.2 ∨ (p1.2 = p2.2 ∧ p1.1 < p2.1)) rs :=
  search_k_exact exIdx [1] 1 2 (by decide) (by decide) (by decide) rfl (by decide)

theorem beamLoop_eq_best (idx : HIndex) (q : Vec) (ef : Nat) :
    ∀ (fuel : Nat) (st : BState),
      beamLoop idx q ef fuel st = (beamLoopSt idx q ef fuel st).best := by
  intro fuel
  induction fuel with
  | zero => intro st; rfl
  | succ fuel ih =>
    intro st
    rw [beamLoop, beamLoopSt]
    cases hmin : minBy idx q st.frontier with
    | none => rfl
    | some c =>
      by_cases hstop : shouldStop idx q ef st c = true
      · simp [hstop]
      · simp only [if_neg hstop]
        exact ih _

theorem evalNbr_vis_mono (idx : HIndex) (q : Vec) (ef : Nat) (st : BState) (e : Nat) :
    ∀ v ∈ st.visited, v ∈ (evalNbr idx q ef st e).visited := by
  intro v hv
  unfold evalNbr
  by_cases h1 : e ∈ st.visited
  · rw [if_pos h1]
    exact hv
  · rw [if_neg h1]
    by_cases h2 : canAdd idx q ef st e = true
    · rw [if_pos h2]
      exact List.mem_cons_of_mem _ hv
    · rw [if_neg h2]
      exact List.mem_cons_of_mem _ hv

theorem foldl_evalNbr_vis_mono (idx : HIndex) (q : Vec) (ef : Nat) (l : List Nat) :
    ∀ (st : BState), ∀ v ∈ st.visited, v ∈ (l.foldl (evalNbr idx q ef) st).visited := by
  induction l with
  | nil => intro st v hv; exact hv
  | cons e l ih =>
    intro st v hv
    exact ih (evalNbr idx q ef st e) v (evalNbr_vis_mono idx q ef st e v hv)

theorem beamLoopSt_vis_mono (idx : HIndex) (q : Vec) (ef : Nat) :
    ∀ (fuel : Nat) (st : BState), ∀ v ∈ st.visited,
      v ∈ (beamLoopSt idx q ef fuel st).visited := by
  intro fuel
  induction fuel with
  | zero => intro st v hv; exact hv
  | succ fuel ih =>
    intro st v hv
    rw [beamLoopSt]
    cases hmin : minBy idx q st.frontier with
    | none => exact hv
    | some c =>
      by_cases hstop : shouldStop idx q ef st c = true
      · simp only [if_pos hstop]
        exact hv
      · simp only [if_neg hstop]
        exact ih _ v (foldl_evalNbr_vis_mono idx q ef _ _ v hv)

theorem beamLoopSt_inv (idx : HIndex) (q : Vec) (ef : Nat) (hwf : WF idx) :
    ∀ (fuel : Nat) (st : BState), BInv idx q ef st →
      BInv idx q ef (beamLoopSt idx q ef fuel st) := by
  intro fuel
  induction fuel with
  | zero => intro st hinv; exact hinv
  | succ fuel ih =>
    intro st hinv
    rw [beamLoopSt]
    cases hmin : minBy idx q st.frontier with
    | none => exact hinv
    | some c =>
      by_cases hstop : shouldStop idx q ef st c = true
      · simp only [if_pos hstop]
        exact hinv
      · simp only [if_neg hstop]
        have hinv1 : BInv idx q ef { st with frontier := st.frontier.erase c } :=
          ⟨hinv.vnodup, hinv.vrange, fun v h => hinv.fsub v (List.erase_subset _ _ h),
            hinv.bsub, hinv.bsorted, hinv.blen, hinv.bfull, hinv.vne,
            hinv.fnodup.erase c, hinv.bdom, hinv.bcard⟩
        exact ih _ (expandAll_spec idx q ef hwf c _ hinv1).1

/-- Under equal visited lists, the narrower run's candidate set is contained
in the wider run's. -/
theorem best_subset_of_le (idx : HIndex) (q : Vec) (ef1 ef2 : Nat)
    (st1 st2 : BState) (h1 : BInv idx q ef1 st1) (h2 : BInv idx q ef2 st2)
    (hvis : st1.visited = st2.visited) (h12 : ef1 ≤ ef2) :
    ∀ x ∈ st1.best, x ∈ st2.best := by
  intro x hx
  by_contra hnx
  have hxv : x ∈ st2.visited := hvis ▸ h1.bsub x hx
  have hdom := h2.bdom x hxv hnx
  have hsub : ∀ y ∈ x :: st2.best, y ∈ st1.best := by
    intro y hy
    rcases List.mem_cons.mp hy with rfl | hyb
    · exact hx
    · have hyv : y ∈ st1.visited := hvis ▸ h2.bsub y hyb
      by_contra hny
      have hxy := h1.bdom y hyv hny x hx
      exact keyRel_irrefl idx q y (keyRel_trans idx q (hdom y hyb) hxy)
  have hnd : (x :: st2.best).Nodup :=
    List.nodup_cons.mpr ⟨hnx, pairwise_nodup idx q _ h2.bsorted⟩
  have hlen := nodup_subset_length _ _ hnd hsub
  have hb1 := h1.bcard
  have hb2 := h2.bcard
  rw [hvis] at hb1
  simp only [List.length_cons] at hlen
  omega

/-- If a fresh candidate is refused, the candidate set is full and every
retained candidate beats it. -/
theorem crowd_of_not_canAdd (idx : HIndex) (q : Vec) (ef : Nat) (st : BState)
    (e : Nat) (hinv : BInv idx q ef st) (hev : e ∉ st.visited)
    (hca : ¬ canAdd idx q ef st e = true) :
    st.best.length = ef ∧ ∀ b ∈ st.best, keyRel idx q b e := by
  unfold canAdd at hca
  simp only [Bool.or_eq_true, decide_eq_true_eq] at hca
  push_neg at hca
  obtain ⟨hn1, h2⟩ := hca
  have hlen : st.best.length = ef := by
    have := hinv.blen
    omega
  refine ⟨hlen, ?_⟩
  intro b hb
  cases hlast : st.best.getLast? with
  | none =>
    rw [List.getLast?_eq_none_iff] at hlast
    rw [hlast] at hb
    simp at hb
  | some w =>
    rw [hlast] at h2
    have hnw : ¬ keyRel idx q e w := fun hh => h2 hh
    have hew : e ≠ w := fun hh => hev (hh ▸ hinv.bsub w (getLast?_mem_list _ _ hlast))
    have hwe : keyRel idx q w e := (keyRel_conn idx q hew).resolve_left hnw
    rcases lastDom idx q st.best hinv.bsorted w hlast b hb with rfl | hbw
    · exact hwe
    · exact keyRel_trans idx q hbw hwe

/-- An accepted candidate with a full candidate set beats the current worst. -/
theorem canAdd_last (idx : HIndex) (q : Vec) (ef : Nat) (st : BState) (e : Nat)
    (hca : canAdd idx q ef st e = true) (hnlt : ¬ st.best.length < ef) :
    ∃ w, st.best.getLast? = some w ∧ keyRel idx q e w := by
  unfold canAdd at hca
  simp only [Bool.or_eq_true, decide_eq_true_eq] at hca
  rcases hca with h | h
  · exact absurd h hnlt
  · cases hlast : st.best.getLast? with
    | none => rw [hlast] at h; simp at h
    | some w => rw [hlast] at h; exact ⟨w, rfl, h⟩

/-- Acceptance is monotone in `ef` under equal visited lists. -/
theorem canAdd_mono (idx : HIndex) (q : Vec) (ef1 ef2 : Nat) (st1 st2 : BState)
    (e : Nat) (h1 : BInv idx q ef1 st1) (h2 : BInv idx q ef2 st2)
    (hvis : st1.visited = st2.visited) (h12 : ef1 ≤ ef2)
    (hca : canAdd idx q ef1 st1 e = true) : canAdd idx q ef2 st2 e = true := by
  by_cases hlt2 : st2.best.length < ef2
  · unfold canAdd
    simp only [Bool.or_eq_true, decide_eq_true_eq]
    exact Or.inl hlt2
  · by_cases hlt1 : st1.best.length < ef1
    · have hb1 := h1.bcard
      have hb2 := h2.bcard
      rw [hvis] at hb1
      omega
    · obtain ⟨w1, hlast1, hew1⟩ := canAdd_last idx q ef1 st1 e hca hlt1
      have hw1b2 : w1 ∈ st2.best := best_subset_of_le idx q ef1 ef2 st1 st2 h1 h2
        hvis h12 w1 (getLast?_mem_list _ _ hlast1)
      have hresult : ∃ w2, st2.best.getLast? = some w2 ∧ keyRel idx q e w2 := by
        cases hlast2 : st2.best.getLast? with
        | none =>
          rw [List.getLast?_eq_none_iff] at hlast2
          rw [hlast2] at hw1b2
          simp at hw1b2
        | some w2 =>
          rcases lastDom idx q st2.best h2.bsorted w2 hlast2 w1 hw1b2 with rfl | hww
          · exact ⟨w1, rfl, hew1⟩
          · exact ⟨w2, rfl, keyRel_trans idx q hew1 hww⟩
      obtain ⟨w2, hl2, he2⟩ := hresult
      unfold canAdd
      simp only [Bool.or_eq_true, decide_eq_true_eq]
      right
      rw [hl2]
      exact he2

theorem evalNbr_coupled (idx : HIndex) (q : Vec) (ef1 ef2 : Nat) (st1 st2 : BState)
    (e : Nat) (h1 : BInv idx q ef1 st1) (h2 : BInv idx q ef2 st2)
    (hc : CInv idx q ef1 st1 st2) (h12 : ef1 ≤ ef2) :
    CInv idx q ef1 (evalNbr idx q ef1 st1 e) (evalNbr idx q ef2 st2 e) := by
  by_cases hv1 : e ∈ st1.visited
  · have hv2 : e ∈ st2.visited := hc.viseq ▸ hv1
    rw [show evalNbr idx q ef1 st1 e = st1 from by simp [evalNbr, hv1],
      show evalNbr idx q ef2 st2 e = st2 from by simp [evalNbr, hv2]]
    exact hc
  · have hv2 : e ∉ st2.visited := fun hh => hv1 (hc.viseq ▸ hh)
    by_cases hca1 : canAdd idx q ef1 st1 e = true
    · have hca2 : canAdd idx q ef2 st2 e = true :=
        canAdd_mono idx q ef1 ef2 st1 st2 e h1 h2 hc.viseq h12 hca1
      rw [show evalNbr idx q ef1 st1 e
          = ⟨e :: st1.visited, e :: st1.frontier, (insKey idx q e st1.best).take ef1⟩
          from by simp [evalNbr, hv1, hca1],
        show evalNbr idx q ef2 st2 e
          = ⟨e :: st2.visited, e :: st2.frontier, (insKey idx q e st2.best).take ef2⟩
          from by simp [evalNbr, hv2, hca2]]
      refine ⟨by rw [hc.viseq], ?_, ?_⟩
      · intro x hx
        rcases List.mem_cons.mp hx with rfl | hx2
        · exact List.mem_cons_self _ _
        · exact List.mem_cons_of_mem _ (hc.fsub12 x hx2)
      · intro x hx2 hnx1
        rcases List.mem_cons.mp hx2 with rfl | hxF2
        · exact absurd (List.mem_cons_self _ _) hnx1
        · have hxnF1 : x ∉ st1.frontier := fun hh => hnx1 (List.mem_cons_of_mem _ hh)
          obtain ⟨hlen, hall⟩ := hc.crowd x hxF2 hxnF1
          constructor
          · rw [List.length_take, insKey_length]
            omega
          · intro b hb
            rcases (insKey_mem idx q e b st1.best).mp
                (List.take_subset _ _ hb) with rfl | hbb
            · obtain ⟨w1, hlast1, hew1⟩ := canAdd_last idx q ef1 st1 b hca1 (by omega)
              exact keyRel_trans idx q hew1
                (hall w1 (getLast?_mem_list _ _ hlast1))
            · exact hall b hbb
    · have hcrowdE := crowd_of_not_canAdd idx q ef1 st1 e h1 hv1 hca1
      by_cases hca2 : canAdd idx q ef2 st2 e = true
      · rw [show evalNbr idx q ef1 st1 e = ⟨e :: st1.visited, st1.frontier, st1.best⟩
            from by simp [evalNbr, hv1, hca1],
          show evalNbr idx q ef2 st2 e
            = ⟨e :: st2.visited, e :: st2.frontier, (insKey idx q e st2.best).take ef2⟩
            from by simp [evalNbr, hv2, hca2]]
        refine ⟨by rw [hc.viseq], ?_, ?_⟩
        · exact fun x hx => List.mem_cons_of_mem _ (hc.fsub12 x hx)
        · intro x hx2 hnx1
          rcases List.mem_cons.mp hx2 with rfl | hxF2
          · exact hcrowdE
          · exact hc.crowd x hxF2 hnx1
      · rw [show evalNbr idx q ef1 st1 e = ⟨e :: st1.visited, st1.frontier, st1.best⟩
            from by simp [evalNbr, hv1, hca1],
          show evalNbr idx q ef2 st2 e = ⟨e :: st2.visited, st2.frontier, st2.best⟩
            from by simp [evalNbr, hv2, hca2]]
        exact ⟨by rw [hc.viseq], hc.fsub12, hc.crowd⟩

theorem foldl_evalNbr_coupled (idx : HIndex) (q : Vec) (ef1 ef2 : Nat)
    (h12 : ef1 ≤ ef2) (l : List Nat) (hl : ∀ e ∈ l, e < idx.nodes.length) :
    ∀ st1 st2 : BState, BInv idx q ef1 st1 → BInv idx q ef2 st2 →
      CInv idx q ef1 st1 st2 →
      CInv idx q ef1 (l.foldl (evalNbr idx q ef1) st1) (l.foldl (evalNbr idx q ef2) st2) := by
  induction l with
  | nil => intro st1 st2 _ _ hc; exact hc
  | cons e l ih =>
    intro st1 st2 h1 h2 hc
    have he : e < idx.nodes.length := hl e (List.mem_cons_self e l)
    have hlrest : ∀ x ∈ l, x < idx.nodes.length :=
      fun x hx => hl x (List.mem_cons_of_mem e hx)
    exact ih hlrest _ _ (evalNbr_spec idx q ef1 st1 e h1 he).1
      (evalNbr_spec idx q ef2 st2 e h2 he).1
      (evalNbr_coupled idx q ef1 ef2 st1 st2 e h1 h2 hc h12)

/-- When a full run does not stop at `c`, the worst retained candidate does
not beat `c`. -/
theorem not_stop_decomp (idx : HIndex) (q : Vec) (ef : Nat) (st : BState) (c : Nat)
    (hs : ¬ shouldStop idx q ef st c = true) (hlen : ef ≤ st.best.length) :
    ∃ w, st.best.getLast? = some w ∧ ¬ keyRel idx q w c := by
  unfold shouldStop at hs
  simp only [Bool.and_eq_true, decide_eq_true_eq] at hs
  push_neg at hs
  have hmatch := hs hlen
  cases hlast : st.best.getLast? with
  | none =>
    rw [hlast] at hmatch
    simp at hmatch
  | some w =>
    rw [hlast] at hmatch
    exact ⟨w, rfl, fun hh => hmatch hh⟩

/-- Coupled beam loops: everything the `ef1` run visits, the `ef2` run visits
(same fuel, coupled initial states). -/
theorem beamLoopSt_coupled (idx : HIndex) (q : Vec) (ef1 ef2 : Nat) (hwf : WF idx)
    (h12 : ef1 ≤ ef2) :
    ∀ (fuel : Nat) (st1 st2 : BState), BInv idx q ef1 st1 → BInv idx q ef2 st2 →
      CInv idx q ef1 st1 st2 →
      ∀ v ∈ (beamLoopSt idx q ef1 fuel st1).visited,
        v ∈ (beamLoopSt idx q ef2 fuel st2).visited := by
  intro fuel
  induction fuel with
  | zero =>
    intro st1 st2 _ _ hc v hv
    exact hc.viseq ▸ hv
  | succ fuel ih =>
    intro st1 st2 h1 h2 hc v hv
    cases hmin1 : minBy idx q st1.frontier with
    | none =>
      have he1 : beamLoopSt idx q ef1 (fuel + 1) st1 = st1 := by
        rw [beamLoopSt, hmin1]
      rw [he1] at hv
      exact beamLoopSt_vis_mono idx q ef2 (fuel + 1) st2 v (hc.viseq ▸ hv)
    | some c1 =>
      by_cases hstop1 : shouldStop idx q ef1 st1 c1 = true
      · have he1 : beamLoopSt idx q ef1 (fuel + 1) st1 = st1 := by
          rw [beamLoopSt, hmin1]
          simp [hstop1]
        rw [he1] at hv
        exact beamLoopSt_vis_mono idx q ef2 (fuel + 1) st2 v (hc.viseq ▸ hv)
      · have hc1f1 : c1 ∈ st1.frontier := minBy_mem _ _ _ _ hmin1
        have hc1f2 : c1 ∈ st2.frontier := hc.fsub12 c1 hc1f1
        cases hmin2 : minBy idx q st2.frontier with
        | none =>
          rw [(minBy_none idx q st2.frontier).mp hmin2] at hc1f2
          simp at hc1f2
        | some c2 =>
          have hc2f2 : c2 ∈ st2.frontier := minBy_mem _ _ _ _ hmin2
          have hnc1c2 : ¬ keyRel idx q c1 c2 :=
            minBy_min idx q st2.frontier c2 hmin2 c1 hc1f2
          have hc2f1 : c2 ∈ st1.frontier := by
            by_contra hnf1
            obtain ⟨hlen1, hall1⟩ := hc.crowd c2 hc2f2 hnf1
            obtain ⟨w1, hlast1, hnw1c1⟩ :=
              not_stop_decomp idx q ef1 st1 c1 hstop1 (by omega)
            have hc1B1 : c1 ∈ st1.best := by
              by_contra hnb
              exact hnw1c1 (h1.bdom c1 (h1.fsub c1 hc1f1) hnb w1
                (getLast?_mem_list _ _ hlast1))
            exact hnc1c2 (hall1 c1 hc1B1)
          have hc1c2 : c1 = c2 := by
            by_contra hne
            rcases keyRel_conn idx q hne with h | h
            · exact hnc1c2 h
            · exact (minBy_min idx q st1.frontier c1 hmin1 c2 hc2f1) h
          subst hc1c2
          have hstop2 : ¬ shouldStop idx q ef2 st2 c1 = true := by
            intro hst2
            unfold shouldStop at hst2
            simp only [Bool.and_eq_true, decide_eq_true_eq] at hst2
            obtain ⟨hlen2, hmatch2⟩ := hst2
            have hb2 := h2.bcard
            have hb1 := h1.bcard
            rw [hc.viseq] at hb1
            have hef1len : st1.best.length = ef1 := by omega
            by_cases hef10 : ef1 = 0
            · apply hstop1
              unfold shouldStop
              simp only [Bool.and_eq_true, decide_eq_true_eq]
              refine ⟨by omega, ?_⟩
              have hB1nil : st1.best = [] :=
                List.eq_nil_of_length_eq_zero (by omega)
              rw [hB1nil]
              rfl
            · have hB1ne : st1.best ≠ [] := by
                intro hh
                rw [hh] at hef1len
                simp at hef1len
                exact hef10 hef1len.symm
              cases hlast1 : st1.best.getLast? with
              | none =>
                rw [List.getLast?_eq_none_iff] at hlast1
                exact hB1ne hlast1
              | some w1 =>
                cases hlast2 : st2.best.getLast? with
                | none =>
                  rw [List.getLast?_eq_none_iff] at hlast2
                  have : w1 ∈ st2.best := best_subset_of_le idx q ef1 ef2 st1 st2
                    h1 h2 hc.viseq h12 w1 (getLast?_mem_list _ _ hlast1)
                  rw [hlast2] at this
                  simp at this
                | some w2 =>
                  rw [hlast2] at hmatch2
                  have hw2c1 : keyRel idx q w2 c1 := hmatch2
                  have hw1b2 : w1 ∈ st2.best := best_subset_of_le idx q ef1 ef2
                    st1 st2 h1 h2 hc.viseq h12 w1 (getLast?_mem_list _ _ hlast1)
                  have hw1c1 : keyRel idx q w1 c1 := by
                    rcases lastDom idx q st2.best h2.bsorted w2 hlast2 w1 hw1b2
                      with rfl | hww
                    · exact hw2c1
                    · exact keyRel_trans idx q hww hw2c1
                  apply hstop1
                  unfold shouldStop
                  simp only [Bool.and_eq_true, decide_eq_true_eq]
                  refine ⟨by omega, ?_⟩
                  rw [hlast1]
                  exact hw1c1
          have he1 : beamLoopSt idx q ef1 (fuel + 1) st1 = beamLoopSt idx q ef1 fuel
              (expandAll idx q ef1 { st1 with frontier := st1.frontier.erase c1 } c1) := by
            rw [beamLoopSt, hmin1]
            simp [hstop1]
          have he2 : beamLoopSt idx q ef2 (fuel + 1) st2 = beamLoopSt idx q ef2 fuel
              (expandAll idx q ef2 { st2 with frontier := st2.frontier.erase c1 } c1) := by
            rw [beamLoopSt, hmin2]
            simp [hstop2]
          rw [he1] at hv
          rw [he2]
          have h1e : BInv idx q ef1 { st1 with frontier := st1.frontier.erase c1 } :=
            ⟨h1.vnodup, h1.vrange, fun x h => h1.fsub x (List.erase_subset _ _ h),
              h1.bsub, h1.bsorted, h1.blen, h1.bfull, h1.vne,
              h1.fnodup.erase c1, h1.bdom, h1.bcard⟩
          have h2e : BInv idx q ef2 { st2 with frontier := st2.frontier.erase c1 } :=
            ⟨h2.vnodup, h2.vrange, fun x h => h2.fsub x (List.erase_subset _ _ h),
              h2.bsub, h2.bsorted, h2.blen, h2.bfull, h2.vne,
              h2.fnodup.erase c1, h2.bdom, h2.bcard⟩
          have hcE : CInv idx q ef1 { st1 with frontier := st1.frontier.erase c1 }
              { st2 with frontier := st2.frontier.erase c1 } := by
            refine ⟨hc.viseq, ?_, ?_⟩
            · intro x hx
              have hxf := (h1.fnodup.mem_erase_iff).mp hx
              exact (List.mem_erase_of_ne hxf.1).mpr (hc.fsub12 x hxf.2)
            · intro x hx2 hnx1
              have hxf2 : x ∈ st2.frontier := List.erase_subset _ _ hx2
              have hxne : x ≠ c1 := ((h2.fnodup.mem_erase_iff).mp hx2).1
              have hxnf1 : x ∉ st1.frontier := fun hh =>
                hnx1 ((List.mem_erase_of_ne hxne).mpr hh)
              exact hc.crowd x hxf2 hxnf1
          exact ih _ _ (expandAll_spec idx q ef1 hwf c1 _ h1e).1
            (expandAll_spec idx q ef2 hwf c1 _ h2e).1
            (foldl_evalNbr_coupled idx q ef1 ef2 h12 (nbrsAt idx 0 c1)
              (wf_nbrs_lt idx hwf 0 c1) _ _ h1e h2e hcE) v hv

/-! ### True top-k and counting -/

theorem insKey_perm (idx : HIndex) (q : Vec) (e : Nat) :
    ∀ l : List Nat, (insKey idx q e l).Perm (e :: l) := by
  intro l
  induction l with
  | nil => exact List.Perm.refl _
  | cons x xs ih =>
    by_cases h : keyLtB idx q e x = true
    · rw [show insKey idx q e (x :: xs) = e :: x :: xs from by simp [insKey, h]]
    · rw [show insKey idx q e (x :: xs) = x :: insKey idx q e xs from by simp [insKey, h]]
      exact (ih.cons x).trans (List.Perm.swap e x xs)

theorem foldr_insKey_perm (idx : HIndex) (q : Vec) (l : List Nat) :
    (l.foldr (insKey idx q) []).Perm l := by
  induction l with
  | nil => exact List.Perm.refl _
  | cons x xs ih =>
    exact (insKey_perm idx q x _).trans (ih.cons x)

theorem foldr_insKey_pairwise (idx : HIndex) (q : Vec) (l : List Nat)
    (hnd : l.Nodup) :
    List.Pairwise (keyRel idx q) (l.foldr (insKey idx q) []) := by
  induction l with
  | nil => simp
  | cons x xs ih =>
    obtain ⟨hx, hnd2⟩ := List.nodup_cons.mp hnd
    apply insKey_pairwise idx q x _ (ih hnd2)
    intro y hy hyx
    have hyxs : y ∈ xs := (foldr_insKey_perm idx q xs).mem_iff.mp hy
    exact hx (hyx ▸ hyxs)

theorem sortedIds_pairwise (idx : HIndex) (q : Vec) :
    List.Pairwise (keyRel idx q) (sortedIds idx q) :=
  foldr_insKey_pairwise idx q _ (List.nodup_range _)

theorem sortedIds_perm (idx : HIndex) (q : Vec) :
    (sortedIds idx q).Perm (List.range idx.nodes.length) :=
  foldr_insKey_perm idx q _

/-- An element of the first `k` of a sorted list has fewer than `k` list
elements strictly below it. -/
theorem mem_take_rank (idx : HIndex) (q : Vec) (l : List Nat)
    (hs : List.Pairwise (keyRel idx q) l) (t k : Nat) (ht : t ∈ l.take k) :
    l.countP (fun y => keyLtB idx q y t) < k := by
  have h1 : l.countP (fun y => keyLtB idx q y t)
      = (l.take k).countP (fun y => keyLtB idx q y t)
        + (l.drop k).countP (fun y => keyLtB idx q y t) := by
    conv_lhs => rw [← List.take_append_drop k l]
    exact List.countP_append _ _ _
  have h2 : (l.drop k).countP (fun y => keyLtB idx q y t) = 0 := by
    rw [List.countP_eq_zero]
    intro y hy hyt
    have hty : keyRel idx q t y := by
      rw [← List.take_append_drop k l] at hs
      exact (List.pairwise_append.mp hs).2.2 t ht y hy
    exact keyRel_irrefl idx q t (keyRel_trans idx q hty hyt)
  have hle : (l.take k).countP (fun y => keyLtB idx q y t) ≤ (l.take k).length :=
    List.countP_le_length _
  have hne : (l.take k).countP (fun y => keyLtB idx q y t) ≠ (l.take k).length := by
    intro heq
    rw [List.countP_eq_length] at heq
    exact keyRel_irrefl idx q t (heq t ht)
  have h4 : (l.take k).length ≤ k := by
    rw [List.length_take]
    omega
  omega

/-- A globally top-`k` id that the beam has visited appears among the first
`k` of the candidate set. -/
theorem topk_mem_take (idx : HIndex) (q : Vec) (ef k : Nat) (st : BState)
    (hinv : BInv idx q ef st) (hk : k ≤ ef) (t : Nat) (htv : t ∈ st.visited)
    (hrank : (List.range idx.nodes.length).countP (fun y => keyLtB idx q y t) < k) :
    t ∈ st.best.take k := by
  have htb : t ∈ st.best := by
    by_contra hnb
    have hdom := hinv.bdom t htv hnb
    by_cases hl : st.best.length < ef
    · exact hnb (hinv.bfull hl t htv)
    · have hsub : ∀ b ∈ st.best, b ∈ (List.range idx.nodes.length).filter
          (fun y => keyLtB idx q y t) := by
        intro b hb
        rw [List.mem_filter]
        exact ⟨List.mem_range.mpr (hinv.vrange b (hinv.bsub b hb)), hdom b hb⟩
      have hlen := nodup_subset_length _ _
        (pairwise_nodup idx q _ hinv.bsorted) hsub
      rw [List.countP_eq_length_filter] at hrank
      omega
  by_contra hnt
  have hdomk := take_dom idx q st.best k hinv.bsorted t htb hnt
  by_cases hbk : st.best.length ≤ k
  · rw [List.take_of_length_le hbk] at hnt
    exact hnt htb
  · have hsub : ∀ b ∈ st.best.take k, b ∈ (List.range idx.nodes.length).filter
        (fun y => keyLtB idx q y t) := by
      intro b hb
      rw [List.mem_filter]
      exact ⟨List.mem_range.mpr
        (hinv.vrange b (hinv.bsub b (List.take_subset _ _ hb))), hdomk b hb⟩
    have hnd : (st.best.take k).Nodup :=
      (pairwise_nodup idx q _ (hinv.bsorted.sublist (List.take_sublist _ _)))
    have hlen := nodup_subset_length _ _ hnd hsub
    rw [List.countP_eq_length_filter] at hrank
    rw [List.length_take] at hlen
    omega

/-- **C7.** Monotone recall: holding the index and query fixed, with
`k ≤ ef1 ≤ ef2`, the overlap between the ids returned by `search` with `ef1`
and the brute-force true top-`k` never exceeds the overlap obtained with
`ef2`. -/
theorem recall_monotone (idx : HIndex) (q : Vec) (k ef1 ef2 : Nat)
    (hwf : WF idx) (hN : 0 < idx.vecs.length) (hq : q.length = idx.dim)
    (hk : k ≤ ef1) (h12 : ef1 ≤ ef2) (rs1 rs2 : List (Nat × ℚ))
    (h1 : search idx q k ef1 = Except.ok rs1)
    (h2 : search idx q k ef2 = Except.ok rs2) :
    overlapCount (trueTopK idx q k) rs1 ≤ overlapCount (trueTopK idx q k) rs2 := by
  have hNn : 0 < idx.nodes.length := by
    rw [wf_counts idx hwf]
    exact hN
  have hs0 := descend_lt idx q hwf hN
  have hcore1 : search idx q k ef1 = Except.ok (searchCore idx q k ef1) := by
    unfold search
    rw [if_neg (by omega), if_neg (by omega)]
  have hcore2 : search idx q k ef2 = Except.ok (searchCore idx q k ef2) := by
    unfold search
    rw [if_neg (by omega), if_neg (by omega)]
  rw [hcore1] at h1
  rw [hcore2] at h2
  have hrs1 : rs1 = searchCore idx q k ef1 := ((Except.ok.injEq _ _).mp h1).symm
  have hrs2 : rs2 = searchCore idx q k ef2 := ((Except.ok.injEq _ _).mp h2).symm
  subst hrs1
  subst hrs2
  have hinit1 := (startState_inv idx q ef1 (descend idx q) hs0).1
  have hinit2 := (startState_inv idx q ef2 (descend idx q) hs0).1
  have hcinit : CInv idx q ef1 (startState ef1 (descend idx q))
      (startState ef2 (descend idx q)) := by
    refine ⟨rfl, fun x h => h, ?_⟩
    intro x hx2 hnx1
    exact absurd hx2 hnx1
  have hinv1f := beamLoopSt_inv idx q ef1 hwf (2 * idx.nodes.length + 2)
    (startState ef1 (descend idx q)) hinit1
  have hinv2f := beamLoopSt_inv idx q ef2 hwf (2 * idx.nodes.length + 2)
    (startState ef2 (descend idx q)) hinit2
  have hvis := beamLoopSt_coupled idx q ef1 ef2 hwf h12 (2 * idx.nodes.length + 2)
    (startState ef1 (descend idx q)) (startState ef2 (descend idx q))
    hinit1 hinit2 hcinit
  have hid1 : (searchCore idx q k ef1).map Prod.fst
      = (beamLoopSt idx q ef1 (2 * idx.nodes.length + 2)
          (startState ef1 (descend idx q))).best.take k := by
    show (((beamLoop idx q ef1 (2 * idx.nodes.length + 2)
      (startState ef1 (descend idx q))).take k).map
        (fun i => (i, dOf idx q i))).map Prod.fst = _
    rw [beamLoop_eq_best]
    simp only [List.map_map]
    rw [show (Prod.fst ∘ fun i => (i, dOf idx q i)) = id from rfl, List.map_id]
  have hid2 : (searchCore idx q k ef2).map Prod.fst
      = (beamLoopSt idx q ef2 (2 * idx.nodes.length + 2)
          (startState ef2 (descend idx q))).best.take k := by
    show (((beamLoop idx q ef2 (2 * idx.nodes.length + 2)
      (startState ef2 (descend idx q))).take k).map
        (fun i => (i, dOf idx q i))).map Prod.fst = _
    rw [beamLoop_eq_best]
    simp only [List.map_map]
    rw [show (Prod.fst ∘ fun i => (i, dOf idx q i)) = id from rfl, List.map_id]
  unfold overlapCount
  rw [hid1, hid2]
  have htrans : ∀ t ∈ (beamLoopSt idx q ef1 (2 * idx.nodes.length + 2)
      (startState ef1 (descend idx q))).best.take k,
      t ∈ trueTopK idx q k →
      t ∈ (beamLoopSt idx q ef2 (2 * idx.nodes.length + 2)
        (startState ef2 (descend idx q))).best.take k := by
    intro t htm htk
    have htv1 : t ∈ (beamLoopSt idx q ef1 (2 * idx.nodes.length + 2)
        (startState ef1 (descend idx q))).visited :=
      hinv1f.bsub t (List.take_subset _ _ htm)
    have htv2 := hvis t htv1
    have hrank : (List.range idx.nodes.length).countP
        (fun y => keyLtB idx q y t) < k := by
      rw [← (sortedIds_perm idx q).countP_eq]
      exact mem_take_rank idx q (sortedIds idx q) (sortedIds_pairwise idx q) t k htk
    exact topk_mem_take idx q ef2 k _ hinv2f (le_trans hk h12) t htv2 hrank
  have hnd1 : ((beamLoopSt idx q ef1 (2 * idx.nodes.length + 2)
      (startState ef1 (descend idx q))).best.take k).Nodup :=
    pairwise_nodup idx q _ (hinv1f.bsorted.sublist (List.take_sublist _ _))
  apply nodup_subset_length
  · exact hnd1.filter _
  · intro x hx
    rw [List.mem_filter] at hx ⊢
    obtain ⟨hxm, hxP⟩ := hx
    rw [decide_eq_true_eq] at hxP
    exact ⟨htrans x hxm hxP, by rw [decide_eq_true_eq]; exact hxP⟩

/-- C7 witness at the concrete two-node index with `k = 1 ≤ ef1 = 1 ≤ ef2 = 2`. -/
theorem recall_monotone_witness :
    overlapCount (trueTopK exIdx [1] 1) (searchCore exIdx [1] 1 1)
      ≤ overlapCount (trueTopK exIdx [1] 1) (searchCore exIdx [1] 1 2) :=
  recall_monotone exIdx [1] 1 1 2 (by decide) (by decide) rfl (by decide) (by decide)
    (searchCore exIdx [1] 1 1) (searchCore exIdx [1] 1 2) rfl rfl

end RecipeApp
